import Mathlib

/-!
# Properties map

A verification development for `properties.go` (package `properties`):
loading of `key=value` lines, the hierarchy view, placeholder expansion, the
cleaner of unexpanded placeholders, `Merge`, `Clone` and `Equals`, and the
tokenizer `SplitQuotedString`.

Go strings are modelled as lists of characters.  Expansion, cleaning and the
hierarchy view only compare string units with each other and with the ASCII
characters `{`, `}`, `.` and line feed, so their results are the same whether
a unit is read as a byte or as a code point.

A Go `map[string]string` is modelled as an association list with pairwise
distinct keys.  `range` over a map visits the entries in an unspecified order
that may change from one loop to the next, so every function that ranges over
a map takes the visiting order as an explicit argument: a list that is a
permutation of the entries of the map, or, for `Merge`, whose sources are
references to map objects, a function that gives such a list for each loop.

The package variable `osSuffix`, which `init` sets from the platform, is an
argument of the functions that read it.
-/

namespace Properties

/-- A Go string. -/
abbrev Str := List Char

/-- The type `Map` of the source: `type Map map[string]string`. -/
abbrev Map := List (Str × Str)

/-! ## Library functions used by the source -/

/-- The empty-pattern case of `strings.Replace(s, "", new, -1)`: `new` is
inserted before every unit and at the end. -/
def replaceEmpty (new : Str) : Str → Str
  | [] => new
  | c :: cs => new ++ c :: replaceEmpty new cs

/-- The scan of `strings.Replace(s, old, new, -1)` for a non-empty `old`:
leftmost, non-overlapping occurrences of `old` are replaced by `new`, left to
right.  The first argument counts the units of the current occurrence that are
still to be skipped. -/
def replaceFrom (old new : Str) : Nat → Str → Str
  | _, [] => []
  | skip + 1, _ :: cs => replaceFrom old new skip cs
  | 0, c :: cs =>
      if old.isPrefixOf (c :: cs) then new ++ replaceFrom old new (old.length - 1) cs
      else c :: replaceFrom old new 0 cs

/-- The call `strings.Replace(s, old, new, -1)`. -/
def Replace (s old new : Str) : Str :=
  if old = [] then replaceEmpty new s else replaceFrom old new 0 s

/-! ## Map access -/

/-- The lookup `m[key]` with its presence flag. -/
def lookup {β : Type} : List (Str × β) → Str → Option β
  | [], _ => none
  | (k, v) :: rest, key => if k = key then some v else lookup rest key

/-- The assignment `m[key] = value`. -/
def assign {β : Type} : List (Str × β) → Str → β → List (Str × β)
  | [], key, value => [(key, value)]
  | (k, v) :: rest, key, value =>
      if k = key then (key, value) :: rest else (k, v) :: assign rest key value

/-- The keys of a map. -/
def keys {β : Type} (m : List (Str × β)) : List Str := m.map Prod.fst

/-- The orders in which the passes of a loop nest may visit the map `m`: pass
number `i` visits the entries in the order `orders i`. -/
def Visits (m : Map) (orders : Nat → Map) : Prop := ∀ i, (orders i).Perm m

/-! ## `ExpandPropsInString` -/

/-- The text `"{" + key + "}"`. -/
def placeholder (key : Str) : Str := '{' :: (key ++ ['}'])

/-- The inner loop of `ExpandPropsInString`, `for key, value := range m`, run
over the entries in the given order from the current `str` and `replaced`. -/
def expandRange : Map → Str → Bool → Str × Bool
  | [], str, replaced => (str, replaced)
  | (key, value) :: rest, str, replaced =>
      let newStr := Replace str (placeholder key) value
      expandRange rest newStr (replaced || str != newStr)

/-- The outer loop of `ExpandPropsInString`,
`for i := 0; i < 10 && replaced; i++`, with `n = 10 - i` passes left. -/
def expandLoop (orders : Nat → Map) : Nat → Nat → Bool → Str → Str
  | 0, _, _, str => str
  | n + 1, i, replaced, str =>
      if replaced then
        let r := expandRange (orders i) str false
        expandLoop orders n (i + 1) r.2 r.1
      else str

/-- The method `Map.ExpandPropsInString`; pass `i` ranges over the map in the
order `orders i`. -/
def ExpandPropsInString (orders : Nat → Map) (str : Str) : Str :=
  expandLoop orders 10 0 true str

/-- The map without the key `k`: the entries left after `delete(m, k)`, in
their order. -/
def without (m : Map) (k : Str) : Map := m.filter (fun kv => kv.1 ≠ k)

/-- The number of occurrences of a non-empty text `pat` in a string: the
number of positions at which `pat` starts. -/
def occ (pat : Str) : Str → Nat
  | [] => 0
  | c :: cs => (if pat.isPrefixOf (c :: cs) then 1 else 0) + occ pat cs

/-- The loop state `(str, replaced)` of `ExpandPropsInString` after `j` rounds
of the outer loop, a round that finds `replaced` false leaving the state as it
is (the loop has stopped). -/
def passState (orders : Nat → Map) (str : Str) : Nat → Str × Bool
  | 0 => (str, true)
  | j + 1 =>
      if (passState orders str j).2 then
        expandRange (orders j) (passState orders str j).1 false
      else passState orders str j

/-- The text has neither `{` nor `}`. -/
def NoBrace (t : Str) : Prop := '{' ∉ t ∧ '}' ∉ t

instance (t : Str) : Decidable (NoBrace t) := by
  unfold NoBrace
  infer_instance

/-- One replacement of one occurrence: `t` is `s` with one occurrence of the
placeholder of a key of `m` replaced by the value of that key. -/
def Step (m : Map) (s t : Str) : Prop :=
  ∃ x y k v, (k, v) ∈ m ∧ s = x ++ placeholder k ++ y ∧ t = x ++ v ++ y

/-- The string has no occurrence of the placeholder of a key of `m`. -/
def Expanded (m : Map) (s : Str) : Prop := ∀ k ∈ keys m, ¬ placeholder k <:+: s

instance (m : Map) (s : Str) : Decidable (Expanded m s) := by
  unfold Expanded
  infer_instance

/-! ## `DeleteUnexpandedPropsFromString` -/

/-- The tail `.*?\}` of the pattern, tried at the head of the string: the
number of units up to and including the first `}`, when no line feed comes
before it (`.` matches every unit but the line feed; the lazy quantifier stops
at the first `}` that completes a match). -/
def closeLen : Str → Option Nat
  | [] => none
  | c :: cs =>
      if c = '}' then some 1
      else if c = '\n' then none
      else (closeLen cs).map (· + 1)

/-- The pattern `\{.+?\}` tried at the head of the string: the length of its
match there, if it matches.  The unit after `{` is consumed by the first `.`,
whatever it is apart from a line feed. -/
def matchLen : Str → Option Nat
  | [] => none
  | [_] => none
  | c :: d :: cs =>
      if c = '{' ∧ d ≠ '\n' then (closeLen cs).map (· + 2) else none

/-- The scan of `rxp.ReplaceAllString(str, "")`: leftmost matches are removed,
left to right, and the search resumes after each match.  The first argument
counts the units of the current match that are still to be skipped. -/
def deleteFrom : Nat → Str → Str
  | _, [] => []
  | skip + 1, _ :: cs => deleteFrom skip cs
  | 0, c :: cs =>
      match matchLen (c :: cs) with
      | some n => deleteFrom (n - 1) cs
      | none => c :: deleteFrom 0 cs

/-- The function `DeleteUnexpandedPropsFromString`. -/
def DeleteUnexpandedPropsFromString (str : Str) : Str := deleteFrom 0 str

/-- The string `t0 + "{" + n1 + "}" + t1 + ... + "{" + nk + "}" + tk`, given
`t0` and the pairs `(n1, t1)`, ..., `(nk, tk)`. -/
def withPlaceholders (t0 : Str) : List (Str × Str) → Str
  | [] => t0
  | (n, t) :: rest => t0 ++ placeholder n ++ withPlaceholders t rest

/-- The string `t0 + t1 + ... + tk`, given `t0` and the pairs `(n1, t1)`, ...,
`(nk, tk)`. -/
def textOnly (t0 : Str) : List (Str × Str) → Str
  | [] => t0
  | (_, t) :: rest => t0 ++ textOnly t rest

/-- Every string that the outer loop of `ExpandPropsInString` can return from
the given state with `n` passes left, when each pass visits the entries in one
of the orders listed in `perms`. -/
def allOutputs (perms : List Map) : Nat → Bool → Str → List Str
  | 0, _, str => [str]
  | n + 1, replaced, str =>
      if replaced then
        perms.flatMap (fun order =>
          allOutputs perms n (expandRange order str false).2 (expandRange order str false).1)
      else [str]

/-! ## `FirstLevelOf` and `SubTree` -/

/-- The part `keyParts[0]` of `strings.SplitN(key, ".", 2)`: the text before
the first `.`. -/
def beforeDot (key : Str) : Str := key.takeWhile (· ≠ '.')

/-- The part `keyParts[1]` of `strings.SplitN(key, ".", 2)` for a key with a
`.`: the text after the first `.`. -/
def afterDot (key : Str) : Str := (key.dropWhile (· ≠ '.')).drop 1

/-- The body of the loop of `FirstLevelOf` for one entry. -/
def firstLevelStep (newMap : List (Str × Map)) (key value : Str) : List (Str × Map) :=
  if '.' ∉ key then newMap
  else
    let sub : Map :=
      match lookup newMap (beforeDot key) with
      | none => []
      | some sub => sub
    assign newMap (beforeDot key) (assign sub (afterDot key) value)

/-- The loop of `FirstLevelOf`, `for key, value := range m`, over the entries
in the given order. -/
def firstLevelRange : Map → List (Str × Map) → List (Str × Map)
  | [], newMap => newMap
  | (key, value) :: rest, newMap => firstLevelRange rest (firstLevelStep newMap key value)

/-- The method `Map.FirstLevelOf`, ranging over the map in the given order. -/
def FirstLevelOf (order : Map) : List (Str × Map) := firstLevelRange order []

/-- The method `Map.SubTree`: `m.FirstLevelOf()[key]`; `none` is the nil map
that Go returns for an absent key. -/
def SubTree (order : Map) (key : Str) : Option Map := lookup (FirstLevelOf order) key

/-- The entry `m[key]` read from a possibly nil map. -/
def lookupNil (m : Option Map) (key : Str) : Option Str :=
  match m with
  | none => none
  | some sub => lookup sub key

/-- The entries that `range` visits in a possibly nil map: none for the nil
map. -/
def entries (m : Option Map) : Map :=
  match m with
  | none => []
  | some sub => sub

/-! ## `LoadFromSlice` and `parseLine` -/

/-- The predicate `unicode.IsSpace`, by which `strings.TrimSpace` trims: tab,
line feed, vertical tab, form feed, carriage return, space, U+0085, U+00A0 and
the other characters with the property White_Space. -/
def isSpace (c : Char) : Bool :=
  (9 ≤ c.toNat && c.toNat ≤ 13) || c.toNat = 32 || c.toNat = 133 || c.toNat = 160 ||
    c.toNat = 5760 || (8192 ≤ c.toNat && c.toNat ≤ 8202) || c.toNat = 8232 ||
    c.toNat = 8233 || c.toNat = 8239 || c.toNat = 8287 || c.toNat = 12288

/-- The call `strings.TrimSpace(s)`. -/
def TrimSpace (s : Str) : Str :=
  ((s.dropWhile isSpace).reverse.dropWhile isSpace).reverse

/-- The call `strings.SplitN(s, sep, 2)` for a separator of one unit: the
string itself when it has no separator, otherwise the text before the first
separator and the text after it. -/
def SplitN2 (s : Str) (sep : Char) : List Str :=
  if sep ∈ s then [s.takeWhile (· ≠ sep), (s.dropWhile (· ≠ sep)).drop 1] else [s]

/-- The scan of `strings.Replace(s, old, new, 1)` for a non-empty `old`: the
leftmost occurrence of `old` is replaced by `new`. -/
def replaceFirst (old new : Str) : Str → Str
  | [] => []
  | c :: cs =>
      if old.isPrefixOf (c :: cs) then new ++ (c :: cs).drop old.length
      else c :: replaceFirst old new cs

/-- The call `strings.Replace(s, old, new, 1)`; an empty `old` matches at the
beginning of the string. -/
def ReplaceFirst (s old new : Str) : Str :=
  if old = [] then new ++ s else replaceFirst old new s

/-- The method `Map.parseLine`, with the package variable `osSuffix` as an
argument; the result is the map after the call, or `none` for the error
`Invalid line format, should be 'key=value'`. -/
def parseLine (osSuffix : Str) (m : Map) (line : Str) : Option Map :=
  let line := TrimSpace line
  if line.length = 0 ∨ line.head? = some '#' then some m
  else
    match SplitN2 line '=' with
    | [part0, part1] =>
        let key := TrimSpace part0
        let value := TrimSpace part1
        let key := ReplaceFirst key ('.' :: osSuffix) []
        some (assign m key value)
    | _ => none

/-- The loop of `LoadFromSlice`, `for lineNum, line := range lines`; the
error carries the index `lineNum` that the error message prints. -/
def loadRange (osSuffix : Str) : Nat → List Str → Map → Except Nat Map
  | _, [], properties => Except.ok properties
  | lineNum, line :: rest, properties =>
      match parseLine osSuffix properties line with
      | none => Except.error lineNum
      | some next => loadRange osSuffix (lineNum + 1) rest next

instance : DecidableEq (Except Nat Map) := fun x y =>
  match x, y with
  | Except.ok a, Except.ok b =>
      if h : a = b then isTrue (by rw [h]) else isFalse (fun e => h (Except.ok.inj e))
  | Except.error a, Except.error b =>
      if h : a = b then isTrue (by rw [h]) else isFalse (fun e => h (Except.error.inj e))
  | Except.ok _, Except.error _ => isFalse (fun e => Except.noConfusion e)
  | Except.error _, Except.ok _ => isFalse (fun e => Except.noConfusion e)

/-- The function `LoadFromSlice`, with the package variable `osSuffix` as an
argument. -/
def LoadFromSlice (osSuffix : Str) (lines : List Str) : Except Nat Map :=
  loadRange osSuffix 0 lines []

/-- The values that `init` gives to `osSuffix` on the supported platforms. -/
def osSuffixes : List Str := ["linux".toList, "freebsd".toList, "windows".toList, "macosx".toList]

/-- The line is skipped by `parseLine`: after trimming it is empty or starts
with `#`. -/
def Skipped (line : Str) : Prop :=
  TrimSpace line = [] ∨ (TrimSpace line).head? = some '#'

instance (line : Str) : Decidable (Skipped line) := by
  unfold Skipped
  infer_instance

/-- The line is malformed: after trimming it is not empty, does not start with
`#` and does not split at a `=` into a key and a value. -/
def Malformed (line : Str) : Prop :=
  ¬ Skipped line ∧ ¬ ∃ key value, TrimSpace line = key ++ '=' :: value

/-- The key of a line: the trimmed text before its first `=`, with the first
occurrence of `"." + osSuffix` removed. -/
def lineKey (osSuffix line : Str) : Str :=
  ReplaceFirst (TrimSpace (line.takeWhile (· ≠ '='))) ('.' :: osSuffix) []

/-- The value of a line: the trimmed text after its first `=`. -/
def lineValue (line : Str) : Str :=
  TrimSpace ((line.dropWhile (· ≠ '=')).drop 1)

/-- The dot-delimited segments of a key; the second argument holds the units
of the current segment, last one first. -/
def segmentsFrom : Str → Str → List Str
  | [], cur => [cur.reverse]
  | c :: cs, cur => if c = '.' then cur.reverse :: segmentsFrom cs [] else segmentsFrom cs (c :: cur)

/-- The dot-delimited segments of a key. -/
def segments (key : Str) : List Str := segmentsFrom key []

/-- In a string `x ++ old ++ y` the occurrence of `old` after `x` is the first
one: no occurrence starts inside `x`, that is, `old` does not occur in `x`
followed by `old` without its last unit. -/
def FirstAt (old x : Str) : Prop := ¬ old <:+: x ++ old.dropLast

instance (old x : Str) : Decidable (FirstAt old x) := by
  unfold FirstAt
  infer_instance

/-! ## `Merge`, `Clone` and `Equals`

A Go map is a reference to a map object, and `Merge` changes the object of
its receiver.  The map objects are kept in a heap, a list indexed by address;
a value of type `Map` is `none` for the nil map or `some a` for the object at
address `a`.  The receiver and the sources of `Merge` are such values, so that
a source may be the very map that `Merge` changes. -/

/-- The map objects of the program, by address. -/
abbrev Heap := List Map

/-- The entries of a map value: those of its object, none for the nil map. -/
def deref (h : Heap) (m : Option Nat) : Map :=
  match m with
  | none => []
  | some a => h.getD a []

/-- The assignment `m[key] = value` for the map object at address `a`. -/
def store : Heap → Nat → Str → Str → Heap
  | [], _, _, _ => []
  | t :: rest, 0, key, value => assign t key value :: rest
  | t :: rest, a + 1, key, value => t :: store rest a key value

/-- The inner loop of `Merge`, `for key, value := range source { m[key] = value }`,
the keys of the source being visited in the order given.  The source is read
while the loop runs: the value of a key is the one that the source holds when
the key is visited, and a key that the source no longer holds is passed over;
`none` is the panic of an assignment to an entry of the nil map. -/
def mergeLive (m source : Option Nat) : List Str → Heap → Option Heap
  | [], h => some h
  | key :: rest, h =>
      match lookup (deref h source) key with
      | none => mergeLive m source rest h
      | some value =>
          match m with
          | none => none
          | some a => mergeLive m source rest (store h a key value)

/-- The outer loop of `Merge`, `for _, source := range sources`, from the loop
number `i` on: `visit i` gives the order in which loop number `i` visits the
entries that its source holds when the loop starts. -/
def mergeLoop (visit : Nat → Map → Map) (m : Option Nat) :
    Nat → List (Option Nat) → Heap → Option Heap
  | _, [], h => some h
  | i, source :: rest, h =>
      match mergeLive m source (keys (visit i (deref h source))) h with
      | none => none
      | some next => mergeLoop visit m (i + 1) rest next

/-- The method `Map.Merge`: the heap after the call and the value returned,
or `none` for a panic. -/
def Merge (visit : Nat → Map → Map) (h : Heap) (m : Option Nat) (sources : List (Option Nat)) :
    Option (Heap × Option Nat) :=
  match mergeLoop visit m 0 sources h with
  | none => none
  | some next => some (next, m)

/-- The inner loop of `Merge` for a source that is another map than the
target, which therefore holds the same entries as long as the loop runs: the
entries of the source are assigned in the order given; `none` is the panic of
an assignment to an entry of the nil map. -/
def mergeRange (m : Option Nat) : Map → Heap → Option Heap
  | [], h => some h
  | (key, value) :: rest, h =>
      match m with
      | none => none
      | some a => mergeRange m rest (store h a key value)

/-- The method `Map.Clone` of a map whose entries are visited in the order
given: `make(Map)` puts a new empty object at the end of the heap, and the
call `clone.Merge(m)` has the one source `m`, which is another map than the
new object, so that its loop is `mergeRange` (`Clone_as_Merge` below shows
that this is the call of `Merge`). -/
def Clone (h : Heap) (order : Map) : Option (Heap × Option Nat) :=
  let clone := some h.length
  match mergeRange clone order (h ++ [[]]) with
  | none => none
  | some next => some (next, clone)

/-- The method `Map.Equals`, that is `reflect.DeepEqual(m, other)` for two
maps: both nil or both not, of the same length, and the same object or every
entry of the first one found with the same value in the other. -/
def Equals (h : Heap) (m other : Option Nat) : Bool :=
  if m.isNone != other.isNone then false
  else if (deref h m).length != (deref h other).length then false
  else if m == other then true
  else (deref h m).all (fun kv => lookup (deref h other) kv.1 == some kv.2)

/-- The entries of the target after one source has been merged into it. -/
def overlayOne (t source : Map) : Map :=
  source.foldl (fun acc kv => assign acc kv.1 kv.2) t


/-! ## `SplitQuotedString` -/

/-- Modelled from the spec: the token boundary of the tokenizer
`SplitQuotedString`, whose source file is not among the sources.  The token
that ends here is put in front of the tokens that follow; a token of length
zero is dropped when the flag is false. -/
def emitToken (keepEmpty : Bool) (tok : Str) (rest : List Str) : List Str :=
  if keepEmpty || !tok.isEmpty then tok :: rest else rest

/-- Modelled from the spec: the scan of the tokenizer `SplitQuotedString`,
whose source file is not among the sources.  The state is the quote character
of the open quoted span, if any, and the token read so far.  Outside a quoted
span a blank character is a token boundary, a character of the quote set opens
a span that only the same character closes, and any other character goes into
the token; inside a span every other character goes into the token; the quote
characters themselves are dropped; the end of the input is a token boundary,
and an error (`none`) when a span is open.  The spec does not name the blank
characters, so they are an argument. -/
def splitFrom (blank : Char → Bool) (quoteChars : Str) (keepEmpty : Bool) :
    Option Char → Str → Str → Option (List Str)
  | none, tok, [] => some (emitToken keepEmpty tok [])
  | some _, _, [] => none
  | none, tok, c :: cs =>
      if blank c then
        (splitFrom blank quoteChars keepEmpty none [] cs).map (emitToken keepEmpty tok)
      else if c ∈ quoteChars then splitFrom blank quoteChars keepEmpty (some c) tok cs
      else splitFrom blank quoteChars keepEmpty none (tok ++ [c]) cs
  | some q, tok, c :: cs =>
      if c = q then splitFrom blank quoteChars keepEmpty none tok cs
      else splitFrom blank quoteChars keepEmpty (some q) (tok ++ [c]) cs

/-- Modelled from the spec: the tokenizer `SplitQuotedString`, whose source
file is not among the sources; `none` is the error of an unterminated quoted
span. -/
def SplitQuotedString (blank : Char → Bool) (src quoteChars : Str) (keepEmpty : Bool) :
    Option (List Str) :=
  splitFrom blank quoteChars keepEmpty none [] src

/-! ## Lemmas on `Replace` -/

theorem replaceFrom_skip (old new : Str) (n : Nat) (s : Str) :
    replaceFrom old new n s = replaceFrom old new 0 (s.drop n) := by
  induction s generalizing n with
  | nil => cases n <;> simp [replaceFrom]
  | cons c cs ih =>
    cases n with
    | zero => simp
    | succ n => simp [replaceFrom, ih n]

theorem Replace_nil (old new : Str) (h : old ≠ []) : Replace [] old new = [] := by
  simp [Replace, h, replaceFrom]

theorem Replace_hit (old new rest : Str) (h : old ≠ []) :
    Replace (old ++ rest) old new = new ++ Replace rest old new := by
  obtain ⟨c, cs, rfl⟩ := List.exists_cons_of_ne_nil h
  simp only [Replace, h, if_false, List.cons_append, replaceFrom]
  rw [if_pos (by simp)]
  rw [replaceFrom_skip]
  simp

theorem Replace_cons (old new : Str) (c : Char) (cs : Str) (h : ¬ old <+: c :: cs) :
    Replace (c :: cs) old new = c :: Replace cs old new := by
  have hne : old ≠ [] := by
    rintro rfl
    exact h (List.nil_prefix)
  simp only [Replace, hne, if_false, replaceFrom]
  rw [if_neg (by simpa using h)]

theorem Replace_absent (old new s : Str) (h : ¬ old <:+: s) : Replace s old new = s := by
  have hne : old ≠ [] := by
    rintro rfl
    exact h (List.nil_infix)
  induction s with
  | nil => exact Replace_nil old new hne
  | cons c cs ih =>
    rw [List.infix_cons_iff] at h
    push_neg at h
    rw [Replace_cons old new c cs h.1, ih h.2]

theorem replaceEmpty_nil (s : Str) : replaceEmpty [] s = s := by
  induction s with
  | nil => rfl
  | cons c cs ih => simp [replaceEmpty, ih]

/-- Induction along the scan of `Replace`: at each position either an
occurrence of `old` starts and is skipped, or one unit is copied. -/
theorem scan_induction (old : Str) (hne : old ≠ []) (P : Str → Prop) (hnil : P [])
    (hit : ∀ rest, P rest → P (old ++ rest))
    (miss : ∀ c cs, ¬ old <+: c :: cs → P cs → P (c :: cs)) : ∀ s, P s := by
  intro s
  generalize hn : s.length = n
  induction n using Nat.strong_induction_on generalizing s with
  | _ n ih =>
    cases s with
    | nil => exact hnil
    | cons c cs =>
      by_cases hp : old <+: c :: cs
      · obtain ⟨rest, hrest⟩ := hp
        rw [← hrest]
        apply hit
        apply ih rest.length _ rest rfl
        have hl : 0 < old.length := List.length_pos.mpr hne
        have := congrArg List.length hrest
        simp only [List.length_append, List.length_cons] at this hn
        omega
      · apply miss c cs hp
        apply ih cs.length _ cs rfl
        subst hn
        simp

theorem Replace_self (s old : Str) : Replace s old old = s := by
  by_cases hne : old = []
  · subst hne
    simp [Replace, replaceEmpty_nil]
  · induction s using scan_induction old hne with
    | hnil => exact Replace_nil old old hne
    | hit rest ih => rw [Replace_hit old old rest hne, ih]
    | miss c cs hp ih => rw [Replace_cons old old c cs hp, ih]

theorem placeholder_ne_nil (key : Str) : placeholder key ≠ [] := by
  simp [placeholder]

/-- A text without `{` in front of the scanned string is copied unchanged. -/
theorem Replace_append_of_no_open (u y key new : Str) (hu : '{' ∉ u) :
    Replace (u ++ y) (placeholder key) new = u ++ Replace y (placeholder key) new := by
  induction u with
  | nil => rfl
  | cons c cs ih =>
    have hc : c ≠ '{' := fun h => hu (by simp [h])
    have hcs : '{' ∉ cs := fun h => hu (by simp [h])
    rw [List.cons_append, Replace_cons, ih hcs]
    · rfl
    · simp only [placeholder, List.cons_prefix_cons]
      exact fun h => hc h.1.symm

theorem Replace_exact (old new : Str) (h : old ≠ []) : Replace old old new = new := by
  have := Replace_hit old new [] h
  rwa [List.append_nil, Replace_nil old new h, List.append_nil] at this

/-! ## Lemmas on the loops of `ExpandPropsInString` -/

theorem expandLoop_false (orders : Nat → Map) (n i : Nat) (str : Str) :
    expandLoop orders n i false str = str := by
  cases n <;> simp [expandLoop]

theorem expandLoop_true (orders : Nat → Map) (n i : Nat) (str : Str) :
    expandLoop orders (n + 1) i true str =
      expandLoop orders n (i + 1) (expandRange (orders i) str false).2
        (expandRange (orders i) str false).1 := by
  simp [expandLoop]

theorem expandRange_cons (key value : Str) (rest : Map) (str : Str) (replaced : Bool) :
    expandRange ((key, value) :: rest) str replaced =
      expandRange rest (Replace str (placeholder key) value)
        (replaced || str != Replace str (placeholder key) value) := rfl

/-- A pass in which no replacement applies leaves the state as it is. -/
theorem expandRange_fix (order : Map) (str : Str) (replaced : Bool)
    (h : ∀ kv ∈ order, Replace str (placeholder kv.1) kv.2 = str) :
    expandRange order str replaced = (str, replaced) := by
  induction order generalizing replaced with
  | nil => rfl
  | cons kv rest ih =>
    obtain ⟨key, value⟩ := kv
    have h1 : Replace str (placeholder key) value = str := h (key, value) (by simp)
    rw [expandRange_cons, h1]
    simp only [bne_self_eq_false, Bool.or_false]
    exact ih replaced (fun kv hkv => h kv (by simp [hkv]))

/-- The loop with `n` passes left continues from the state after `j` rounds to
the state after `j + n` rounds. -/
theorem expandLoop_passState (orders : Nat → Map) (str : Str) (n j : Nat) :
    expandLoop orders n j (passState orders str j).2 (passState orders str j).1 =
      (passState orders str (j + n)).1 := by
  induction n generalizing j with
  | zero => simp [expandLoop]
  | succ n ih =>
    have hstep := ih (j + 1)
    rw [show j + 1 + n = j + (n + 1) by omega] at hstep
    rw [← hstep]
    cases hb : (passState orders str j).2 with
    | true =>
      rw [expandLoop_true]
      simp [passState, hb]
    | false =>
      rw [expandLoop_false]
      simp [passState, hb, expandLoop_false]

theorem ExpandPropsInString_eq_passState (orders : Nat → Map) (str : Str) :
    ExpandPropsInString orders str = (passState orders str 10).1 := by
  have := expandLoop_passState orders str 10 0
  simpa [ExpandPropsInString, passState] using this

/-- Once `replaced` is false the state no longer moves. -/
theorem passState_stable (orders : Nat → Map) (str : Str) (j n : Nat)
    (h : (passState orders str j).2 = false) :
    passState orders str (j + n) = passState orders str j := by
  induction n with
  | zero => rfl
  | succ n ih =>
    rw [← Nat.add_assoc]
    show (if (passState orders str (j + n)).2 then _ else _) = _
    rw [ih, h]
    simp

/-! ## Placeholders of keys without braces -/

/-- Two texts that end at their first `c` and start at the same place are equal. -/
theorem eq_of_append_cons_eq (c : Char) (x y r t : Str) (hx : c ∉ x) (hy : c ∉ y)
    (h : x ++ c :: r = y ++ c :: t) : x = y := by
  induction x generalizing y with
  | nil =>
    cases y with
    | nil => rfl
    | cons d ds =>
      simp only [List.nil_append, List.cons_append, List.cons.injEq] at h
      exact absurd (by simp [h.1]) hy
  | cons e es ih =>
    cases y with
    | nil =>
      simp only [List.nil_append, List.cons_append, List.cons.injEq] at h
      exact absurd (by simp [h.1]) hx
    | cons d ds =>
      simp only [List.cons_append, List.cons.injEq] at h
      rw [h.1, ih ds (fun hm => hx (by simp [hm])) (fun hm => hy (by simp [hm])) h.2]

theorem placeholder_prefix_eq (a k rest : Str) (ha : '}' ∉ a) (hk : '}' ∉ k)
    (h : placeholder k <+: placeholder a ++ rest) : k = a := by
  obtain ⟨t, ht⟩ := h
  simp only [placeholder, List.cons_append, List.append_assoc, List.cons.injEq, true_and,
    List.nil_append] at ht
  exact eq_of_append_cons_eq '}' k a t rest hk ha ht

/-- An occurrence of a placeholder cannot start inside a text without `{`. -/
theorem infix_of_infix_append_no_open (k u y : Str) (hu : '{' ∉ u)
    (h : placeholder k <:+: u ++ y) : placeholder k <:+: y := by
  induction u with
  | nil => exact h
  | cons c cs ih =>
    rw [List.cons_append, List.infix_cons_iff] at h
    rcases h with h | h
    · simp only [placeholder, List.cons_prefix_cons] at h
      exact absurd (by simp [← h.1]) hu
    · exact ih (fun hm => hu (by simp [hm])) h

theorem placeholder_infix_skip (a k rest : Str) (ha : NoBrace a) (hk : NoBrace k) (hne : a ≠ k)
    (h : placeholder k <:+: placeholder a ++ rest) : placeholder k <:+: rest := by
  have h0 := h
  rw [show placeholder a ++ rest = '{' :: ((a ++ ['}']) ++ rest) by simp [placeholder],
    List.infix_cons_iff] at h
  rcases h with h | h
  · rw [show '{' :: ((a ++ ['}']) ++ rest) = placeholder a ++ rest by simp [placeholder]] at h
    exact absurd (placeholder_prefix_eq a k rest ha.2 hk.2 h).symm hne
  · refine infix_of_infix_append_no_open k (a ++ ['}']) rest ?_ h
    simp [ha.1]

/-- Replacing the placeholder of another key keeps every occurrence of `{k}`,
when neither key has a brace. -/
theorem placeholder_infix_Replace (a k value s : Str) (ha : NoBrace a) (hk : NoBrace k)
    (hne : a ≠ k) (h : placeholder k <:+: s) :
    placeholder k <:+: Replace s (placeholder a) value := by
  induction s using scan_induction (placeholder a) (placeholder_ne_nil a) with
  | hnil => simp [placeholder] at h
  | hit rest ih =>
    rw [Replace_hit _ _ _ (placeholder_ne_nil a)]
    exact List.IsInfix.trans (ih (placeholder_infix_skip a k rest ha hk hne h))
      (List.suffix_append _ _).isInfix
  | miss c cs hp ih =>
    rw [Replace_cons _ _ _ _ hp]
    rw [List.infix_cons_iff] at h
    rcases h with h | h
    · obtain ⟨y, hy⟩ := h
      simp only [placeholder, List.cons_append, List.cons.injEq] at hy
      obtain ⟨hc, hcs⟩ := hy
      subst hc
      rw [← hcs, Replace_append_of_no_open (k ++ ['}']) y a value (by simp [hk.1])]
      exact ⟨[], Replace y (placeholder a) value, by simp [placeholder]⟩
    · exact List.IsInfix.trans (ih h) (List.suffix_cons _ _).isInfix

/-- The placeholder of a key without braces contains the placeholder of no
other key. -/
theorem placeholder_disjoint (a k : Str) (hk : NoBrace k) (hne : a ≠ k) :
    ¬ placeholder a <:+: placeholder k := by
  intro h
  have hsub := h.subset
  rw [show placeholder k = '{' :: (k ++ ['}']) from rfl, List.infix_cons_iff] at h
  rcases h with h | h
  · obtain ⟨t, ht⟩ := h
    simp only [placeholder, List.cons_append, List.append_assoc, List.cons.injEq, true_and] at ht
    have hlen := congrArg List.length ht
    simp only [List.length_append, List.length_cons, List.length_nil] at hlen
    have hpre : a <+: k ++ ['}'] := ⟨['}'] ++ t, by simpa using ht⟩
    obtain ⟨r, hr⟩ := List.prefix_of_prefix_length_le hpre (List.prefix_append k ['}']) (by omega)
    subst hr
    rw [List.append_assoc, List.append_cancel_left_eq] at ht
    cases r with
    | nil => exact hne (by simp)
    | cons d ds =>
      simp only [List.cons_append, List.cons.injEq] at ht
      exact hk.2 (by simp [← ht.1])
  · have : '{' ∈ k ++ ['}'] := h.subset (by simp [placeholder])
    simp [hk.1] at this

theorem perm_pair {α : Type} (x y : α) (l : List α) (h : l.Perm [x, y]) :
    l = [x, y] ∨ l = [y, x] := by
  have hlen := h.length_eq
  match l, hlen with
  | [p, q], _ =>
    have hp : p ∈ [x, y] := h.subset (by simp)
    simp only [List.mem_cons, List.mem_singleton, List.not_mem_nil, or_false] at hp
    rcases hp with rfl | rfl
    · left
      have := (List.perm_cons p).mp h
      rw [List.perm_singleton] at this
      rw [this]
    · right
      have h2 : [p, q].Perm [p, x] := h.trans (List.Perm.swap p x [])
      have := (List.perm_cons p).mp h2
      rw [List.perm_singleton] at this
      rw [this]

theorem Replace_of_no_open (s key new : Str) (h : '{' ∉ s) :
    Replace s (placeholder key) new = s := by
  have := Replace_append_of_no_open s [] key new h
  rwa [List.append_nil, Replace_nil _ _ (placeholder_ne_nil key), List.append_nil] at this

theorem placeholder_ne_of_no_open (key v : Str) (h : '{' ∉ v) : placeholder key ≠ v := by
  rintro rfl
  exact h (by simp [placeholder])

theorem placeholder_inj (a b : Str) (h : placeholder a = placeholder b) : a = b := by
  simpa [placeholder] using h

/-- Helper: a string without any placeholder of a visited key is returned
as it is. -/
theorem expand_untouched (orders : Nat → Map) (s : Str)
    (h : ∀ kv ∈ orders 0, ¬ placeholder kv.1 <:+: s) : ExpandPropsInString orders s = s := by
  unfold ExpandPropsInString
  rw [expandLoop_true, expandRange_fix (orders 0) s false
    (fun kv hkv => Replace_absent _ _ _ (h kv hkv)), expandLoop_false]

theorem mem_keys_of_mem {β : Type} (m : List (Str × β)) (kv : Str × β) (h : kv ∈ m) :
    kv.1 ∈ keys m := List.mem_map_of_mem Prod.fst h

/-- A pass over keys without braces, all different from `k`, keeps every
occurrence of the placeholder of `k`. -/
theorem expandRange_keeps (order : Map) (k str : Str) (replaced : Bool) (hk : NoBrace k)
    (ho : ∀ kv ∈ order, NoBrace kv.1 ∧ kv.1 ≠ k) (h : placeholder k <:+: str) :
    placeholder k <:+: (expandRange order str replaced).1 := by
  induction order generalizing str replaced with
  | nil => exact h
  | cons kv rest ih =>
    obtain ⟨key, value⟩ := kv
    rw [expandRange_cons]
    have hkey := ho (key, value) (by simp)
    exact ih _ _ (fun kv hkv => ho kv (by simp [hkv]))
      (placeholder_infix_Replace key k value str hkey.1 hk hkey.2 h)

theorem passState_keeps (orders : Nat → Map) (k s : Str) (hk : NoBrace k)
    (ho : ∀ i, ∀ kv ∈ orders i, NoBrace kv.1 ∧ kv.1 ≠ k) (h : placeholder k <:+: s) (j : Nat) :
    placeholder k <:+: (passState orders s j).1 := by
  induction j with
  | zero => exact h
  | succ j ih =>
    rw [passState]
    split
    · exact expandRange_keeps _ _ _ _ hk (ho j) ih
    · exact ih

/-- Helper: expansion over keys without braces, all different from `k`, keeps
an occurrence of the placeholder of `k`. -/
theorem expand_keeps (orders : Nat → Map) (k s : Str) (hk : NoBrace k)
    (ho : ∀ i, ∀ kv ∈ orders i, NoBrace kv.1 ∧ kv.1 ≠ k) (h : placeholder k <:+: s) :
    placeholder k <:+: ExpandPropsInString orders s := by
  rw [ExpandPropsInString_eq_passState]
  exact passState_keeps orders k s hk ho h 10

theorem occ_cons (pat : Str) (c : Char) (cs : Str) :
    occ pat (c :: cs) = (if pat <+: c :: cs then 1 else 0) + occ pat cs := by
  simp only [occ, List.isPrefixOf_iff_prefix]

theorem occ_append_ge (pat u y : Str) : occ pat y ≤ occ pat (u ++ y) := by
  induction u with
  | nil => exact Nat.le_refl _
  | cons c cs ih =>
    rw [List.cons_append, occ_cons]
    omega

/-- No occurrence of a placeholder starts inside a text without `{`. -/
theorem occ_no_open (k u y : Str) (hu : '{' ∉ u) :
    occ (placeholder k) (u ++ y) = occ (placeholder k) y := by
  induction u with
  | nil => rfl
  | cons c cs ih =>
    have hc : ¬ placeholder k <+: c :: (cs ++ y) := by
      simp only [placeholder, List.cons_prefix_cons]
      exact fun h => hu (List.mem_cons.mpr (Or.inl h.1))
    rw [List.cons_append, occ_cons, if_neg hc, ih (fun hm => hu (List.mem_cons_of_mem _ hm))]
    omega

/-- No occurrence of the placeholder of `k` starts inside an occurrence of the
placeholder of another key, when neither key has a brace. -/
theorem occ_skip (a k rest : Str) (ha : NoBrace a) (hk : NoBrace k) (hne : a ≠ k) :
    occ (placeholder k) (placeholder a ++ rest) = occ (placeholder k) rest := by
  have hc : ¬ placeholder k <+: '{' :: ((a ++ ['}']) ++ rest) := by
    intro h
    rw [show '{' :: ((a ++ ['}']) ++ rest) = placeholder a ++ rest by simp [placeholder]] at h
    exact hne (placeholder_prefix_eq a k rest ha.2 hk.2 h).symm
  rw [show placeholder a ++ rest = '{' :: ((a ++ ['}']) ++ rest) by simp [placeholder],
    occ_cons, if_neg hc, occ_no_open k (a ++ ['}']) rest (by simp [ha.1])]
  omega

/-- Replacing the placeholder of another key loses no occurrence of `{k}`,
when neither key has a brace. -/
theorem occ_Replace (a k value s : Str) (ha : NoBrace a) (hk : NoBrace k) (hne : a ≠ k) :
    occ (placeholder k) s ≤ occ (placeholder k) (Replace s (placeholder a) value) := by
  induction s using scan_induction (placeholder a) (placeholder_ne_nil a) with
  | hnil => exact Nat.zero_le _
  | hit rest ih =>
    rw [Replace_hit _ _ _ (placeholder_ne_nil a), occ_skip a k rest ha hk hne]
    exact Nat.le_trans ih (occ_append_ge _ value _)
  | miss c cs hp ih =>
    rw [Replace_cons _ _ _ _ hp, occ_cons, occ_cons]
    by_cases hpre : placeholder k <+: c :: cs
    · have hpre2 : placeholder k <+: c :: Replace cs (placeholder a) value := by
        obtain ⟨y, hy⟩ := hpre
        simp only [placeholder, List.cons_append, List.cons.injEq] at hy
        obtain ⟨hc, hcs⟩ := hy
        subst hc
        rw [← hcs, Replace_append_of_no_open (k ++ ['}']) y a value (by simp [hk.1])]
        exact ⟨Replace y (placeholder a) value, by simp [placeholder]⟩
      rw [if_pos hpre, if_pos hpre2]
      omega
    · rw [if_neg hpre]
      split <;> omega

theorem expandRange_occ (order : Map) (k str : Str) (replaced : Bool) (hk : NoBrace k)
    (ho : ∀ kv ∈ order, NoBrace kv.1 ∧ kv.1 ≠ k) :
    occ (placeholder k) str ≤ occ (placeholder k) (expandRange order str replaced).1 := by
  induction order generalizing str replaced with
  | nil => exact Nat.le_refl _
  | cons kv rest ih =>
    obtain ⟨key, value⟩ := kv
    rw [expandRange_cons]
    have hkey := ho (key, value) (by simp)
    exact Nat.le_trans (occ_Replace key k value str hkey.1 hk hkey.2)
      (ih _ _ (fun kv hkv => ho kv (by simp [hkv])))

theorem passState_occ (orders : Nat → Map) (k s : Str) (hk : NoBrace k)
    (ho : ∀ i, ∀ kv ∈ orders i, NoBrace kv.1 ∧ kv.1 ≠ k) (j : Nat) :
    occ (placeholder k) s ≤ occ (placeholder k) (passState orders s j).1 := by
  induction j with
  | zero => exact Nat.le_refl _
  | succ j ih =>
    rw [passState]
    split
    · exact Nat.le_trans ih (expandRange_occ _ _ _ _ hk (ho j))
    · exact ih

/-- Helper: expansion over keys without braces, all different from `k`, loses
no occurrence of the placeholder of `k`. -/
theorem expand_occ (orders : Nat → Map) (k s : Str) (hk : NoBrace k)
    (ho : ∀ i, ∀ kv ∈ orders i, NoBrace kv.1 ∧ kv.1 ≠ k) :
    occ (placeholder k) s ≤ occ (placeholder k) (ExpandPropsInString orders s) := by
  rw [ExpandPropsInString_eq_passState]
  exact passState_occ orders k s hk ho 10

theorem lookup_eq_of_mem {β : Type} (m : List (Str × β)) (k : Str)
    (hnd : (keys m).Nodup) (kv : Str × β) (hkv : kv ∈ m) (hk : kv.1 = k) :
    lookup m k = some kv.2 := by
  induction m with
  | nil => simp at hkv
  | cons e rest ih =>
    obtain ⟨k0, v0⟩ := e
    simp only [keys, List.map_cons, List.nodup_cons] at hnd
    rcases List.mem_cons.mp hkv with rfl | hin
    · have hk0 : k0 = k := hk
      simp [lookup, hk0]
    · have hne : k0 ≠ k := by
        rintro rfl
        exact hnd.1 (hk ▸ List.mem_map_of_mem Prod.fst hin)
      simp only [lookup, hne, if_false]
      exact ih hnd.2 hin

theorem expandRange_without (order : Map) (k str : Str) (replaced : Bool)
    (h : ∀ kv ∈ order, kv.1 = k → kv.2 = placeholder k) :
    expandRange order str replaced = expandRange (without order k) str replaced := by
  induction order generalizing str replaced with
  | nil => rfl
  | cons kv rest ih =>
    obtain ⟨key, value⟩ := kv
    have hrest : ∀ kv ∈ rest, kv.1 = k → kv.2 = placeholder k :=
      fun kv hkv => h kv (by simp [hkv])
    by_cases hkey : key = k
    · have hval : value = placeholder k := h (key, value) (by simp) hkey
      subst hkey hval
      rw [expandRange_cons, Replace_self]
      simp only [bne_self_eq_false, Bool.or_false]
      rw [ih _ _ hrest]
      simp [without]
    · have : without ((key, value) :: rest) k = (key, value) :: without rest k := by
        simp [without, hkey]
      rw [this, expandRange_cons, expandRange_cons, ih _ _ hrest]

theorem expandLoop_without (orders : Nat → Map) (k : Str)
    (h : ∀ i, ∀ kv ∈ orders i, kv.1 = k → kv.2 = placeholder k) (n i : Nat) (replaced : Bool)
    (str : Str) :
    expandLoop orders n i replaced str
      = expandLoop (fun i => without (orders i) k) n i replaced str := by
  induction n generalizing i replaced str with
  | zero => rfl
  | succ n ih =>
    cases replaced with
    | false => rw [expandLoop_false, expandLoop_false]
    | true =>
      rw [expandLoop_true, expandLoop_true, ih]
      simp only [expandRange_without (orders i) k str false (h i)]

/-- A pass that ends with `replaced` false has changed nothing. -/
theorem expandRange_unchanged (order : Map) (str : Str) (replaced : Bool)
    (h : (expandRange order str replaced).2 = false) :
    (expandRange order str replaced).1 = str ∧ replaced = false := by
  induction order generalizing str replaced with
  | nil => exact ⟨rfl, h⟩
  | cons kv rest ih =>
    obtain ⟨key, value⟩ := kv
    rw [expandRange_cons] at h ⊢
    obtain ⟨h1, h2⟩ := ih _ _ h
    simp only [Bool.or_eq_false_iff, bne_eq_false_iff_eq] at h2
    exact ⟨by rw [h1, ← h2.2], h2.1⟩

/-- One pass over the map with the single entry `k -> x{k}` puts one more `x`
in front of the placeholder. -/
theorem expandRange_growing (k : Str) (n : Nat) :
    expandRange [(k, 'x' :: placeholder k)] (List.replicate n 'x' ++ placeholder k) false
      = (List.replicate (n + 1) 'x' ++ placeholder k, true) := by
  have hx : '{' ∉ List.replicate n 'x' := by
    intro h
    have := List.eq_of_mem_replicate h
    revert this
    decide
  have hr : Replace (List.replicate n 'x' ++ placeholder k) (placeholder k)
      ('x' :: placeholder k) = List.replicate (n + 1) 'x' ++ placeholder k := by
    rw [Replace_append_of_no_open _ _ _ _ hx, Replace_exact _ _ (placeholder_ne_nil k),
      List.replicate_succ']
    simp
  have hne : List.replicate n 'x' ++ placeholder k
      ≠ List.replicate (n + 1) 'x' ++ placeholder k := by
    intro h
    have := congrArg List.length h
    simp at this
  simp [expandRange_cons, expandRange, hr, hne]

theorem expandLoop_growing (o1 : Nat → Map) (k : Str)
    (h1 : ∀ i, o1 i = [(k, 'x' :: placeholder k)]) (n i j : Nat) :
    expandLoop o1 n i true (List.replicate j 'x' ++ placeholder k)
      = List.replicate (j + n) 'x' ++ placeholder k := by
  induction n generalizing i j with
  | zero => rfl
  | succ n ih =>
    rw [expandLoop_true, h1 i, expandRange_growing, ih]
    rw [show j + 1 + n = j + (n + 1) by omega]

/-! ## Expansion as rewriting: order independence of full expansions -/

theorem Step_append_left {m : Map} {s t : Str} (u : Str) (h : Step m s t) :
    Step m (u ++ s) (u ++ t) := by
  obtain ⟨x, y, k, v, hkv, rfl, rfl⟩ := h
  exact ⟨u ++ x, y, k, v, hkv, by simp, by simp⟩

theorem Steps_append_left {m : Map} {s t : Str} (u : Str)
    (h : Relation.ReflTransGen (Step m) s t) :
    Relation.ReflTransGen (Step m) (u ++ s) (u ++ t) := by
  induction h with
  | refl => exact Relation.ReflTransGen.refl
  | tail _ hstep ih => exact ih.tail (Step_append_left u hstep)

/-- The call `Replace s "{k}" v` replaces occurrences one by one. -/
theorem Steps_Replace (m : Map) (k v s : Str) (hkv : (k, v) ∈ m) :
    Relation.ReflTransGen (Step m) s (Replace s (placeholder k) v) := by
  induction s using scan_induction (placeholder k) (placeholder_ne_nil k) with
  | hnil =>
    rw [Replace_nil _ _ (placeholder_ne_nil k)]
  | hit rest ih =>
    rw [Replace_hit _ _ _ (placeholder_ne_nil k)]
    have h1 : Step m (placeholder k ++ rest) (v ++ rest) := ⟨[], rest, k, v, hkv, by simp, by simp⟩
    exact Relation.ReflTransGen.head h1 (Steps_append_left v ih)
  | miss c cs hp ih =>
    rw [Replace_cons _ _ _ _ hp]
    exact Steps_append_left [c] ih

theorem Steps_expandRange (m order : Map) (str : Str) (replaced : Bool)
    (ho : ∀ kv ∈ order, kv ∈ m) :
    Relation.ReflTransGen (Step m) str (expandRange order str replaced).1 := by
  induction order generalizing str replaced with
  | nil => exact Relation.ReflTransGen.refl
  | cons kv rest ih =>
    obtain ⟨key, value⟩ := kv
    rw [expandRange_cons]
    exact (Steps_Replace m key value str (ho _ (by simp))).trans
      (ih _ _ (fun kv hkv => ho kv (by simp [hkv])))

theorem Steps_passState (m : Map) (orders : Nat → Map) (s : Str) (hv : Visits m orders)
    (j : Nat) : Relation.ReflTransGen (Step m) s (passState orders s j).1 := by
  induction j with
  | zero => exact Relation.ReflTransGen.refl
  | succ j ih =>
    rw [passState]
    split
    · exact ih.trans (Steps_expandRange m _ _ _ (fun kv hkv => (hv j).subset hkv))
    · exact ih

/-- Helper: the output of `ExpandPropsInString` is reached from the input by
single replacements. -/
theorem Steps_ExpandPropsInString (m : Map) (orders : Nat → Map) (s : Str)
    (hv : Visits m orders) :
    Relation.ReflTransGen (Step m) s (ExpandPropsInString orders s) := by
  rw [ExpandPropsInString_eq_passState]
  exact Steps_passState m orders s hv 10

/-- Two occurrences of placeholders of keys without braces, the second one not
starting before the first, are the same occurrence or do not overlap. -/
theorem placeholder_apart (k1 k2 a y1 y2 : Str) (h1 : NoBrace k1) (h2 : NoBrace k2)
    (h : placeholder k1 ++ y1 = a ++ (placeholder k2 ++ y2)) :
    (a = [] ∧ k1 = k2 ∧ y1 = y2) ∨ ∃ b, a = placeholder k1 ++ b ∧ y1 = b ++ (placeholder k2 ++ y2) := by
  rcases List.append_eq_append_iff.mp h with ⟨c, hc1, hc2⟩ | ⟨c, hc1, hc2⟩
  · -- `a = placeholder k1 ++ c`
    exact Or.inr ⟨c, hc1, hc2⟩
  · -- `placeholder k1 = a ++ c` and `placeholder k2 ++ y2 = c ++ y1`
    cases a with
    | nil =>
      left
      simp only [List.nil_append] at hc1 h
      have hk : k1 = k2 := (placeholder_prefix_eq k1 k2 y1 h1.2 h2.2 ⟨y2, h.symm⟩).symm
      subst hk
      exact ⟨rfl, rfl, List.append_cancel_left h⟩
    | cons e es =>
      cases c with
      | nil =>
        right
        refine ⟨[], by simpa using hc1.symm, ?_⟩
        simpa using hc2.symm
      | cons f fs =>
        exfalso
        have hf : f = '{' := by
          simp only [placeholder, List.cons_append, List.cons.injEq] at hc2
          exact hc2.1.symm
        have hmem : f ∈ k1 ++ ['}'] := by
          simp only [placeholder, List.cons_append, List.cons.injEq] at hc1
          rw [hc1.2]
          simp
        rw [hf] at hmem
        simp [h1.1] at hmem

theorem value_unique (m : Map) (hnd : (keys m).Nodup) (k v1 v2 : Str) (h1 : (k, v1) ∈ m)
    (h2 : (k, v2) ∈ m) : v1 = v2 := by
  have e1 := lookup_eq_of_mem m k hnd (k, v1) h1 rfl
  have e2 := lookup_eq_of_mem m k hnd (k, v2) h2 rfl
  rw [e1] at e2
  exact Option.some.inj e2

theorem diamond_aux (m : Map) (hnd : (keys m).Nodup) (hm : ∀ k ∈ keys m, NoBrace k)
    (x a k1 v1 y1 k2 v2 y2 : Str) (h1 : (k1, v1) ∈ m) (h2 : (k2, v2) ∈ m)
    (h : placeholder k1 ++ y1 = a ++ (placeholder k2 ++ y2)) :
    x ++ v1 ++ y1 = (x ++ a) ++ v2 ++ y2 ∨
      ∃ u, Step m (x ++ v1 ++ y1) u ∧ Step m ((x ++ a) ++ v2 ++ y2) u := by
  have hb1 : NoBrace k1 := hm k1 (mem_keys_of_mem m _ h1)
  have hb2 : NoBrace k2 := hm k2 (mem_keys_of_mem m _ h2)
  rcases placeholder_apart k1 k2 a y1 y2 hb1 hb2 h with ⟨ha, hk, hy⟩ | ⟨b, ha, hy⟩
  · left
    subst ha hk hy
    rw [value_unique m hnd k1 v1 v2 h1 h2]
    simp
  · right
    subst ha hy
    refine ⟨x ++ v1 ++ b ++ v2 ++ y2, ?_, ?_⟩
    · exact ⟨x ++ v1 ++ b, y2, k2, v2, h2, by simp, by simp⟩
    · exact ⟨x, b ++ v2 ++ y2, k1, v1, h1, by simp, by simp⟩

/-- Two single replacements in the same string give the same string or can be
joined by one more replacement each. -/
theorem Step_diamond (m : Map) (hnd : (keys m).Nodup) (hm : ∀ k ∈ keys m, NoBrace k)
    (s t1 t2 : Str) (h1 : Step m s t1) (h2 : Step m s t2) :
    t1 = t2 ∨ ∃ u, Step m t1 u ∧ Step m t2 u := by
  obtain ⟨x1, y1, k1, v1, hkv1, hs1, rfl⟩ := h1
  obtain ⟨x2, y2, k2, v2, hkv2, hs2, rfl⟩ := h2
  rw [hs1, List.append_assoc, List.append_assoc] at hs2
  rcases List.append_eq_append_iff.mp hs2 with ⟨a, ha1, ha2⟩ | ⟨c, hc1, hc2⟩
  · subst ha1
    exact diamond_aux m hnd hm x1 a k1 v1 y1 k2 v2 y2 hkv1 hkv2 ha2
  · subst hc1
    rcases diamond_aux m hnd hm x2 c k2 v2 y2 k1 v1 y1 hkv2 hkv1 hc2 with h | ⟨u, hu1, hu2⟩
    · exact Or.inl h.symm
    · exact Or.inr ⟨u, hu2, hu1⟩

theorem Steps_confluent (m : Map) (hnd : (keys m).Nodup) (hm : ∀ k ∈ keys m, NoBrace k)
    (s t1 t2 : Str) (h1 : Relation.ReflTransGen (Step m) s t1)
    (h2 : Relation.ReflTransGen (Step m) s t2) :
    ∃ u, Relation.ReflTransGen (Step m) t1 u ∧ Relation.ReflTransGen (Step m) t2 u := by
  refine Relation.church_rosser ?_ h1 h2
  intro a b c hab hac
  rcases Step_diamond m hnd hm a b c hab hac with h | ⟨u, hu1, hu2⟩
  · exact ⟨b, Relation.ReflGen.refl, h ▸ Relation.ReflTransGen.refl⟩
  · exact ⟨u, Relation.ReflGen.single hu1, Relation.ReflTransGen.single hu2⟩

/-- A string without a placeholder of a key of `m` admits no replacement. -/
theorem Steps_of_Expanded (m : Map) (t u : Str) (ht : Expanded m t)
    (h : Relation.ReflTransGen (Step m) t u) : u = t := by
  induction h with
  | refl => rfl
  | tail _ hstep ih =>
    subst ih
    obtain ⟨x, y, k, v, hkv, hs, _⟩ := hstep
    exact absurd ⟨x, y, hs.symm⟩ (ht k (mem_keys_of_mem m _ hkv))

/-! ## Lemmas on `DeleteUnexpandedPropsFromString` -/

theorem deleteFrom_skip (n : Nat) (s : Str) : deleteFrom n s = deleteFrom 0 (s.drop n) := by
  induction s generalizing n with
  | nil => cases n <;> simp [deleteFrom]
  | cons c cs ih =>
    cases n with
    | zero => simp
    | succ n => simp [deleteFrom, ih n]

theorem Delete_nil : DeleteUnexpandedPropsFromString [] = [] := rfl

theorem matchLen_pos (s : Str) (n : Nat) (h : matchLen s = some n) : 0 < n := by
  match s, h with
  | c :: d :: cs, h =>
    simp only [matchLen] at h
    split at h
    · cases hc : closeLen cs with
      | none => simp [hc] at h
      | some x =>
        simp only [hc, Option.map_some', Option.some.injEq] at h
        omega
    · simp at h

/-- A match at the head of the string is removed and the scan resumes after it. -/
theorem Delete_match (s : Str) (n : Nat) (h : matchLen s = some n) :
    DeleteUnexpandedPropsFromString s = DeleteUnexpandedPropsFromString (s.drop n) := by
  have hn := matchLen_pos s n h
  cases s with
  | nil => simp [matchLen] at h
  | cons c cs =>
    simp only [DeleteUnexpandedPropsFromString, deleteFrom, h]
    rw [deleteFrom_skip]
    obtain ⟨k, rfl⟩ : ∃ k, n = k + 1 := ⟨n - 1, by omega⟩
    simp

/-- Without a match at the head of the string its first unit is copied. -/
theorem Delete_cons (c : Char) (cs : Str) (h : matchLen (c :: cs) = none) :
    DeleteUnexpandedPropsFromString (c :: cs) = c :: DeleteUnexpandedPropsFromString cs := by
  simp only [DeleteUnexpandedPropsFromString, deleteFrom, h]

theorem matchLen_of_ne_open (c : Char) (cs : Str) (h : c ≠ '{') : matchLen (c :: cs) = none := by
  cases cs with
  | nil => rfl
  | cons d ds => simp [matchLen, h]

theorem matchLen_le (s : Str) (n : Nat) (h : matchLen s = some n) : n ≤ s.length := by
  have hclose : ∀ (t : Str) (x : Nat), closeLen t = some x → x ≤ t.length := by
    intro t
    induction t with
    | nil => intro x hx; simp [closeLen] at hx
    | cons e es ih =>
      intro x hx
      simp only [closeLen] at hx
      split at hx
      · simp only [Option.some.injEq] at hx
        simp [← hx]
      · split at hx
        · simp at hx
        · cases he : closeLen es with
          | none => simp [he] at hx
          | some y =>
            simp only [he, Option.map_some', Option.some.injEq] at hx
            have := ih y he
            simp only [List.length_cons]
            omega
  match s, h with
  | c :: d :: cs, h =>
    simp only [matchLen] at h
    split at h
    · cases hc : closeLen cs with
      | none => simp [hc] at h
      | some x =>
        simp only [hc, Option.map_some', Option.some.injEq] at h
        have := hclose cs x hc
        simp only [List.length_cons]
        omega
    · simp at h

/-- Induction along the scan of `DeleteUnexpandedPropsFromString`. -/
theorem delete_induction (P : Str → Prop) (hnil : P [])
    (hit : ∀ s n, matchLen s = some n → P (s.drop n) → P s)
    (miss : ∀ c cs, matchLen (c :: cs) = none → P cs → P (c :: cs)) : ∀ s, P s := by
  intro s
  generalize hn : s.length = n
  induction n using Nat.strong_induction_on generalizing s with
  | _ n ih =>
    cases s with
    | nil => exact hnil
    | cons c cs =>
      cases hm : matchLen (c :: cs) with
      | none =>
        apply miss c cs hm
        apply ih cs.length _ cs rfl
        subst hn
        simp
      | some x =>
        apply hit _ x hm
        apply ih _ _ _ rfl
        have h1 := matchLen_pos _ _ hm
        have h2 := matchLen_le _ _ hm
        simp only [List.length_drop, List.length_cons] at hn h2 ⊢
        omega

theorem Delete_append_of_no_open (t rest : Str) (h : '{' ∉ t) :
    DeleteUnexpandedPropsFromString (t ++ rest) = t ++ DeleteUnexpandedPropsFromString rest := by
  induction t with
  | nil => rfl
  | cons c cs ih =>
    have hc : c ≠ '{' := fun e => h (by simp [e])
    rw [List.cons_append, Delete_cons _ _ (matchLen_of_ne_open c _ hc),
      ih (fun hm => h (by simp [hm]))]
    rfl

theorem closeLen_append (u rest : Str) (h1 : '}' ∉ u) (h2 : '\n' ∉ u) :
    closeLen (u ++ '}' :: rest) = some (u.length + 1) := by
  induction u with
  | nil => simp [closeLen]
  | cons c cs ih =>
    have hc1 : c ≠ '}' := fun e => h1 (by simp [e])
    have hc2 : c ≠ '\n' := fun e => h2 (by simp [e])
    have ih2 := ih (fun hm => h1 (by simp [hm])) (fun hm => h2 (by simp [hm]))
    rw [List.cons_append]
    simp only [closeLen, hc1, hc2, if_false]
    rw [ih2]
    simp

theorem Delete_placeholder (n rest : Str) (hne : n ≠ []) (h1 : '}' ∉ n) (h2 : '\n' ∉ n) :
    DeleteUnexpandedPropsFromString (placeholder n ++ rest)
      = DeleteUnexpandedPropsFromString rest := by
  obtain ⟨d, u, rfl⟩ := List.exists_cons_of_ne_nil hne
  have hd : d ≠ '\n' := fun e => h2 (by simp [e])
  have hm : matchLen (placeholder (d :: u) ++ rest) = some (u.length + 3) := by
    have hc := closeLen_append u rest (fun hm => h1 (by simp [hm])) (fun hm => h2 (by simp [hm]))
    simp [placeholder, matchLen, hd, hc]
  rw [Delete_match _ _ hm]
  congr 1
  simp [placeholder]

theorem closeLen_of_no_close (s : Str) (h : '}' ∉ s) : closeLen s = none := by
  induction s with
  | nil => rfl
  | cons c cs ih =>
    have hc : c ≠ '}' := fun e => h (by simp [e])
    simp only [closeLen, hc, if_false, ih (fun hm => h (by simp [hm]))]
    split <;> rfl

theorem matchLen_of_no_close (s : Str) (h : '}' ∉ s) : matchLen s = none := by
  match s with
  | [] => rfl
  | [_] => rfl
  | c :: d :: cs =>
    simp only [matchLen, closeLen_of_no_close cs (fun hm => h (by simp [hm]))]
    split <;> rfl

/-- Where no `}` closes the current line, none does after cleaning. -/
theorem closeLen_Delete (u : Str) (h : closeLen u = none) :
    closeLen (DeleteUnexpandedPropsFromString u) = none := by
  induction u with
  | nil => rfl
  | cons c cs ih =>
    simp only [closeLen] at h
    split at h
    · simp at h
    · rename_i hc1
      by_cases hc2 : c = '\n'
      · have hopen : c ≠ '{' := by
          rw [hc2]
          decide
        rw [Delete_cons c cs (matchLen_of_ne_open c cs hopen)]
        simp [closeLen, hc2]
      · simp only [hc2, if_false, Option.map_eq_none'] at h
        have hm : matchLen (c :: cs) = none := by
          cases cs with
          | nil => rfl
          | cons d w =>
            simp only [matchLen]
            split
            · rename_i hcd
              simp only [closeLen, hcd.2, if_false] at h
              split at h
              · simp at h
              · simpa using h
            · rfl
        rw [Delete_cons c cs hm]
        simp [closeLen, hc1, hc2, ih h]

/-- Cleaning the rest of the string brings no match to a position that had
none. -/
theorem matchLen_cons_Delete (c : Char) (cs : Str) (h : matchLen (c :: cs) = none) :
    matchLen (c :: DeleteUnexpandedPropsFromString cs) = none := by
  by_cases hc : c = '{'
  · cases cs with
    | nil => rfl
    | cons d u =>
      by_cases hd : d = '\n'
      · have hopen : d ≠ '{' := by
          rw [hd]
          decide
        rw [Delete_cons d u (matchLen_of_ne_open d u hopen)]
        simp [matchLen, hd]
      · have hu : closeLen u = none := by
          simpa [matchLen, hc, hd] using h
        have hm : matchLen (d :: u) = none := by
          cases u with
          | nil => rfl
          | cons e w =>
            simp only [matchLen]
            split
            · rename_i hde
              simp only [closeLen, hde.2, if_false] at hu
              split at hu
              · simp at hu
              · simpa using hu
            · rfl
        rw [Delete_cons d u hm]
        simp [matchLen, closeLen_Delete u hu]
  · exact matchLen_of_ne_open c _ hc

theorem expandLoop_mem_allOutputs (perms : List Map) (orders : Nat → Map)
    (h : ∀ i, orders i ∈ perms) (n i : Nat) (replaced : Bool) (str : Str) :
    expandLoop orders n i replaced str ∈ allOutputs perms n replaced str := by
  induction n generalizing i replaced str with
  | zero => simp [expandLoop, allOutputs]
  | succ n ih =>
    cases replaced with
    | false => simp [expandLoop, allOutputs]
    | true =>
      rw [expandLoop_true]
      simp only [allOutputs, if_true, List.mem_flatMap]
      exact ⟨orders i, h i, ih _ _ _⟩

/-! ## Lemmas on maps and on `FirstLevelOf` -/

theorem lookup_assign {β : Type} (m : List (Str × β)) (k k2 : Str) (v : β) :
    lookup (assign m k v) k2 = if k = k2 then some v else lookup m k2 := by
  induction m with
  | nil => simp [assign, lookup]
  | cons e rest ih =>
    obtain ⟨k0, v0⟩ := e
    by_cases h0 : k0 = k
    · subst h0
      by_cases h1 : k0 = k2 <;> simp [assign, lookup, h1]
    · simp only [assign, h0, if_false, lookup, ih]
      by_cases h1 : k = k2
      · subst h1
        simp [h0]
      · simp [h1]

theorem lookup_iff_mem {β : Type} (m : List (Str × β)) (k : Str) (v : β)
    (hnd : (keys m).Nodup) : lookup m k = some v ↔ (k, v) ∈ m := by
  constructor
  · intro h
    induction m with
    | nil => simp [lookup] at h
    | cons e rest ih =>
      obtain ⟨k0, v0⟩ := e
      simp only [keys, List.map_cons, List.nodup_cons] at hnd
      by_cases h0 : k0 = k
      · simp only [lookup, h0, if_true, Option.some.injEq] at h
        simp [h0, h]
      · simp only [lookup, h0, if_false] at h
        simp [ih hnd.2 h]
  · intro h
    exact lookup_eq_of_mem m k hnd (k, v) h rfl

theorem beforeDot_append (p s : Str) (hp : '.' ∉ p) : beforeDot (p ++ '.' :: s) = p := by
  induction p with
  | nil => simp [beforeDot, List.takeWhile]
  | cons c cs ih =>
    have hc : c ≠ '.' := fun e => hp (by simp [e])
    have := ih (fun hm => hp (by simp [hm]))
    simpa [beforeDot, List.takeWhile, hc] using this

theorem afterDot_append (p s : Str) (hp : '.' ∉ p) : afterDot (p ++ '.' :: s) = s := by
  induction p with
  | nil => simp [afterDot, List.dropWhile]
  | cons c cs ih =>
    have hc : c ≠ '.' := fun e => hp (by simp [e])
    have := ih (fun hm => hp (by simp [hm]))
    simpa [afterDot, List.dropWhile, hc] using this

theorem beforeDot_no_dot (key : Str) : '.' ∉ beforeDot key := by
  induction key with
  | nil => simp [beforeDot]
  | cons c cs ih =>
    by_cases hc : c = '.'
    · simp [beforeDot, List.takeWhile, hc]
    · simp only [beforeDot] at ih
      simp only [beforeDot, List.takeWhile, ne_eq, hc, not_false_eq_true, decide_True,
        List.mem_cons, not_or]
      exact ⟨fun e => hc e.symm, ih⟩

theorem split_at_dot (key : Str) (h : '.' ∈ key) :
    key = beforeDot key ++ '.' :: afterDot key := by
  induction key with
  | nil => simp at h
  | cons c cs ih =>
    by_cases hc : c = '.'
    · simp [beforeDot, afterDot, List.takeWhile, List.dropWhile, hc]
    · have hcs : '.' ∈ cs := by
        rcases List.mem_cons.mp h with e | e
        · exact absurd e.symm hc
        · exact e
      have := ih hcs
      simp only [beforeDot, afterDot] at this
      simp only [beforeDot, afterDot, List.takeWhile, List.dropWhile, ne_eq, hc,
        not_false_eq_true, decide_True, List.cons_append, List.cons.injEq, true_and]
      exact this

/-- The split of a key at its first dot gives `p` and `s` exactly when `p` has
no dot and the key is `p + "." + s`. -/
theorem split_iff (key p s : Str) :
    ('.' ∈ key ∧ beforeDot key = p ∧ afterDot key = s) ↔ ('.' ∉ p ∧ key = p ++ '.' :: s) := by
  constructor
  · rintro ⟨h, rfl, rfl⟩
    exact ⟨beforeDot_no_dot key, split_at_dot key h⟩
  · rintro ⟨hp, rfl⟩
    exact ⟨by simp, beforeDot_append p s hp, afterDot_append p s hp⟩

/-- The entry that one round of the loop of `FirstLevelOf` leaves under `p`
and `s`. -/
theorem lookupNil_firstLevelStep (newMap : List (Str × Map)) (key value p s : Str) :
    lookupNil (lookup (firstLevelStep newMap key value) p) s =
      if '.' ∈ key ∧ beforeDot key = p ∧ afterDot key = s then some value
      else lookupNil (lookup newMap p) s := by
  unfold firstLevelStep
  by_cases hdot : '.' ∈ key
  · simp only [hdot, not_true_eq_false, if_false, true_and, lookup_assign]
    by_cases hp : beforeDot key = p
    · subst hp
      simp only [if_true, lookupNil, lookup_assign, true_and]
      by_cases hs : afterDot key = s
      · simp [hs]
      · simp only [hs, if_false]
        cases lookup newMap (beforeDot key) <;> simp [lookup]
    · simp [hp]
  · simp [hdot]

theorem lookupNil_firstLevelRange (order : Map) (newMap : List (Str × Map)) (p s v : Str)
    (hnd : (keys order).Nodup) (hp : '.' ∉ p) :
    lookupNil (lookup (firstLevelRange order newMap) p) s = some v ↔
      ((p ++ '.' :: s, v) ∈ order ∨
        (p ++ '.' :: s ∉ keys order ∧ lookupNil (lookup newMap p) s = some v)) := by
  induction order generalizing newMap with
  | nil => simp [firstLevelRange, keys]
  | cons e rest ih =>
    obtain ⟨key, value⟩ := e
    simp only [keys, List.map_cons, List.nodup_cons] at hnd
    rw [firstLevelRange, ih _ hnd.2, lookupNil_firstLevelStep]
    by_cases hk : key = p ++ '.' :: s
    · rw [if_pos ((split_iff key p s).mpr ⟨hp, hk⟩)]
      subst hk
      have hnot : ∀ w, (p ++ '.' :: s, w) ∉ rest :=
        fun w hw => hnd.1 (List.mem_map_of_mem Prod.fst hw)
      simp only [Option.some.injEq, hnot, false_or,
        keys, List.map_cons, List.mem_cons, true_or, not_true_eq_false, false_and, or_false,
        Prod.mk.injEq, true_and]
      constructor
      · rintro ⟨_, h⟩
        exact h.symm
      · intro h
        exact ⟨hnd.1, h.symm⟩
    · rw [if_neg (fun hc => hk ((split_iff key p s).mp hc).2)]
      have hk2 : ¬ (p ++ '.' :: s = key) := fun e => hk e.symm
      simp [hk, hk2, keys]

theorem lookupNil_firstLevelRange_dot (order : Map) (newMap : List (Str × Map)) (p s : Str)
    (hp : '.' ∈ p) :
    lookupNil (lookup (firstLevelRange order newMap) p) s = lookupNil (lookup newMap p) s := by
  induction order generalizing newMap with
  | nil => rfl
  | cons e rest ih =>
    obtain ⟨key, value⟩ := e
    rw [firstLevelRange, ih, lookupNil_firstLevelStep,
      if_neg (fun hc => ((split_iff key p s).mp hc).1 hp)]

/-- Helper: the entries of the sub-maps of `FirstLevelOf`. -/
theorem lookupNil_SubTree (m order : Map) (p s v : Str) (hnd : (keys m).Nodup)
    (ho : order.Perm m) :
    lookupNil (SubTree order p) s = some v ↔ ('.' ∉ p ∧ lookup m (p ++ '.' :: s) = some v) := by
  have hndo : (keys order).Nodup := ((ho.map Prod.fst).nodup_iff).mpr hnd
  unfold SubTree FirstLevelOf
  by_cases hp : '.' ∈ p
  · rw [lookupNil_firstLevelRange_dot _ _ _ _ hp]
    simp [hp, lookup, lookupNil]
  · rw [lookupNil_firstLevelRange _ _ _ _ _ hndo hp, lookup_iff_mem m _ _ hnd]
    simp [hp, lookup, lookupNil, ho.mem_iff]

/-! ## Claims on `ExpandPropsInString` -/

/-- The statement of C1 without a condition on the keys fails: with the keys
`k` and `k}}` and the value `42`, a pass that visits `k` first turns `{k}}}`
into `42}}`, which no later pass changes. -/
theorem expand_chained_brace_key_counterexample :
    ¬ (∀ (a b v : Str) (orders : Nat → Map), a ≠ b → NoBrace v →
        Visits [(a, v), (b, placeholder a)] orders →
        ExpandPropsInString orders (placeholder b) = v) := by
  intro h
  have := h "k".toList "k\x7d\x7d".toList "42".toList
    (fun _ => [("k".toList, "42".toList), ("k\x7d\x7d".toList, placeholder "k".toList)])
    (by decide) (by decide) (fun _ => List.Perm.refl _)
  revert this
  decide

/-- C1 (amended): over the map with `key1 -> 42` and `key2 -> {key1}` the
input `{key1} == {key2} == true` expands to `42 == 42 == true` whatever order
the keys are visited in in every pass; and for distinct keys `a` and `b` and a
value `v`, none of the three containing a brace, expanding `{b}` over the map
with `a -> v` and `b -> {a}` yields `v` for every visiting order. -/
theorem expand_chained (o1 o2 : Nat → Map) (a b v : Str)
    (h1 : Visits [("key1".toList, "42".toList), ("key2".toList, "\x7bkey1\x7d".toList)] o1)
    (hab : a ≠ b) (ha : NoBrace a) (hb : NoBrace b) (hv : NoBrace v)
    (h2 : Visits [(a, v), (b, placeholder a)] o2) :
    ExpandPropsInString o1 "\x7bkey1\x7d == \x7bkey2\x7d == true".toList
        = "42 == 42 == true".toList ∧
      ExpandPropsInString o2 (placeholder b) = v := by
  constructor
  · have pab_0 : expandRange
        [("key1".toList, "42".toList), ("key2".toList, "\x7bkey1\x7d".toList)]
        "\x7bkey1\x7d == \x7bkey2\x7d == true".toList false
        = ("42 == \x7bkey1\x7d == true".toList, true) := by decide
    have pba_0 : expandRange
        [("key2".toList, "\x7bkey1\x7d".toList), ("key1".toList, "42".toList)]
        "\x7bkey1\x7d == \x7bkey2\x7d == true".toList false
        = ("42 == 42 == true".toList, true) := by decide
    have pab_1 : expandRange
        [("key1".toList, "42".toList), ("key2".toList, "\x7bkey1\x7d".toList)]
        "42 == \x7bkey1\x7d == true".toList false
        = ("42 == 42 == true".toList, true) := by decide
    have pba_1 : expandRange
        [("key2".toList, "\x7bkey1\x7d".toList), ("key1".toList, "42".toList)]
        "42 == \x7bkey1\x7d == true".toList false
        = ("42 == 42 == true".toList, true) := by decide
    have pab_2 : expandRange
        [("key1".toList, "42".toList), ("key2".toList, "\x7bkey1\x7d".toList)]
        "42 == 42 == true".toList false
        = ("42 == 42 == true".toList, false) := by decide
    have pba_2 : expandRange
        [("key2".toList, "\x7bkey1\x7d".toList), ("key1".toList, "42".toList)]
        "42 == 42 == true".toList false
        = ("42 == 42 == true".toList, false) := by decide
    have e0 := perm_pair _ _ _ (h1 0)
    have e1 := perm_pair _ _ _ (h1 (0 + 1))
    have e2 := perm_pair _ _ _ (h1 (0 + 1 + 1))
    unfold ExpandPropsInString
    rw [expandLoop_true]
    rcases e0 with e0 | e0 <;> rw [e0]
    · rw [pab_0, expandLoop_true]
      rcases e1 with e1 | e1 <;> rw [e1]
      · rw [pab_1, expandLoop_true]
        rcases e2 with e2 | e2 <;> rw [e2]
        · rw [pab_2, expandLoop_false]
        · rw [pba_2, expandLoop_false]
      · rw [pba_1, expandLoop_true]
        rcases e2 with e2 | e2 <;> rw [e2]
        · rw [pab_2, expandLoop_false]
        · rw [pba_2, expandLoop_false]
    · rw [pba_0, expandLoop_true]
      rcases e1 with e1 | e1 <;> rw [e1]
      · rw [pab_2, expandLoop_false]
      · rw [pba_2, expandLoop_false]
  · have f1 : Replace (placeholder b) (placeholder a) v = placeholder b :=
      Replace_absent _ _ _ (placeholder_disjoint a b hb hab)
    have f2 : Replace (placeholder b) (placeholder b) (placeholder a) = placeholder a :=
      Replace_exact _ _ (placeholder_ne_nil b)
    have f3 : Replace (placeholder a) (placeholder a) v = v :=
      Replace_exact _ _ (placeholder_ne_nil a)
    have f4 : ∀ key new, Replace v (placeholder key) new = v :=
      fun key new => Replace_of_no_open v key new hv.1
    have f5 : Replace (placeholder a) (placeholder b) (placeholder a) = placeholder a :=
      Replace_absent _ _ _ (placeholder_disjoint b a ha (Ne.symm hab))
    have g1 : placeholder b ≠ placeholder a := fun h => hab (placeholder_inj _ _ h).symm
    have g2 : placeholder a ≠ v := placeholder_ne_of_no_open a v hv.1
    have pab_b : expandRange [(a, v), (b, placeholder a)] (placeholder b) false
        = (placeholder a, true) := by
      simp [expandRange_cons, expandRange, f1, f2, g1]
    have pba_b : expandRange [(b, placeholder a), (a, v)] (placeholder b) false = (v, true) := by
      simp [expandRange_cons, expandRange, f2, f3, g1]
    have pab_a : expandRange [(a, v), (b, placeholder a)] (placeholder a) false = (v, true) := by
      simp [expandRange_cons, expandRange, f3, f4, g2]
    have pba_a : expandRange [(b, placeholder a), (a, v)] (placeholder a) false = (v, true) := by
      simp [expandRange_cons, expandRange, f3, f5, g2]
    have pab_v : expandRange [(a, v), (b, placeholder a)] v false = (v, false) := by
      simp [expandRange_cons, expandRange, f4]
    have pba_v : expandRange [(b, placeholder a), (a, v)] v false = (v, false) := by
      simp [expandRange_cons, expandRange, f4]
    have e0 := perm_pair _ _ _ (h2 0)
    have e1 := perm_pair _ _ _ (h2 (0 + 1))
    have e2 := perm_pair _ _ _ (h2 (0 + 1 + 1))
    unfold ExpandPropsInString
    rw [expandLoop_true]
    rcases e0 with e0 | e0 <;> rw [e0]
    · rw [pab_b, expandLoop_true]
      rcases e1 with e1 | e1 <;> rw [e1]
      · rw [pab_a, expandLoop_true]
        rcases e2 with e2 | e2 <;> rw [e2]
        · rw [pab_v, expandLoop_false]
        · rw [pba_v, expandLoop_false]
      · rw [pba_a, expandLoop_true]
        rcases e2 with e2 | e2 <;> rw [e2]
        · rw [pab_v, expandLoop_false]
        · rw [pba_v, expandLoop_false]
    · rw [pba_b, expandLoop_true]
      rcases e1 with e1 | e1 <;> rw [e1]
      · rw [pab_v, expandLoop_false]
      · rw [pba_v, expandLoop_false]

theorem expand_chained_witness :
    ExpandPropsInString
        (fun _ => [("key1".toList, "42".toList), ("key2".toList, "\x7bkey1\x7d".toList)])
        "\x7bkey1\x7d == \x7bkey2\x7d == true".toList = "42 == 42 == true".toList ∧
      ExpandPropsInString
        (fun _ => [("b".toList, placeholder "a".toList), ("a".toList, "v".toList)])
        (placeholder "b".toList) = "v".toList :=
  expand_chained _ _ "a".toList "b".toList "v".toList (fun _ => List.Perm.refl _)
    (by decide) (by decide) (by decide) (by decide) (fun _ => List.Perm.swap _ _ _)

/-- C2: if the string contains no occurrence of the placeholder of any key of
the map, `ExpandPropsInString` returns it unchanged, whatever order the keys
are visited in. -/
theorem expand_fixed_point (m : Map) (orders : Nat → Map) (s : Str) (hv : Visits m orders)
    (h : ∀ k ∈ keys m, ¬ placeholder k <:+: s) : ExpandPropsInString orders s = s :=
  expand_untouched orders s
    (fun kv hkv => h kv.1 (mem_keys_of_mem m kv ((hv 0).subset hkv)))

theorem expand_fixed_point_witness :
    ExpandPropsInString (fun _ => [("key2".toList, "42".toList)])
      "\x7bkey1\x7d == \x7bkey3\x7d".toList = "\x7bkey1\x7d == \x7bkey3\x7d".toList :=
  expand_fixed_point [("key2".toList, "42".toList)] _ _ (fun _ => List.Perm.refl _) (by decide)

/-- The statement of C3 fails when a key has a brace: over the map with
`a -> x` the placeholder of the absent key `{a}` is rewritten, and over the
map with `k}{k -> v` both occurrences of the placeholder of the absent key `k`
in `{k}{k}` disappear. -/
theorem expand_absent_brace_key_counterexample :
    ("\x7ba\x7d".toList ∉ keys [("a".toList, "x".toList)] ∧
      ExpandPropsInString (fun _ => [("a".toList, "x".toList)]) (placeholder "\x7ba\x7d".toList)
        = "\x7bx\x7d".toList ∧
      ¬ placeholder "\x7ba\x7d".toList <:+: "\x7bx\x7d".toList) ∧
    ("k".toList ∉ keys [("k\x7d\x7bk".toList, "v".toList)] ∧
      placeholder "k".toList <:+: "\x7bk\x7d\x7bk\x7d".toList ∧
      ExpandPropsInString (fun _ => [("k\x7d\x7bk".toList, "v".toList)])
        "\x7bk\x7d\x7bk\x7d".toList = "v".toList ∧
      ¬ placeholder "k".toList <:+: "v".toList) := by
  decide

/-- C3 (amended): for every map whose keys contain no brace, every key `k`
without a brace that is not a key of the map and every string that contains
the placeholder of `k`, the output of `ExpandPropsInString` still contains
it, whatever order the keys are visited in; in particular the placeholder of
`k` itself is returned unchanged. -/
theorem expand_keeps_absent (m : Map) (orders : Nat → Map) (k s : Str) (hv : Visits m orders)
    (hm : ∀ a ∈ keys m, NoBrace a) (hk : NoBrace k) (hnot : k ∉ keys m)
    (hs : placeholder k <:+: s) :
    placeholder k <:+: ExpandPropsInString orders s ∧
      ExpandPropsInString orders (placeholder k) = placeholder k := by
  have hmem : ∀ i, ∀ kv ∈ orders i, kv.1 ∈ keys m :=
    fun i kv hkv => mem_keys_of_mem m kv ((hv i).subset hkv)
  have hne : ∀ i, ∀ kv ∈ orders i, kv.1 ≠ k := by
    intro i kv hkv he
    exact hnot (he ▸ hmem i kv hkv)
  constructor
  · exact expand_keeps orders k s hk (fun i kv hkv => ⟨hm _ (hmem i kv hkv), hne i kv hkv⟩) hs
  · exact expand_untouched orders _
      (fun kv hkv => placeholder_disjoint kv.1 k hk (hne 0 kv hkv))

theorem expand_keeps_absent_witness :
    placeholder "key3".toList <:+:
        ExpandPropsInString (fun _ => [("key1".toList, "42".toList)])
          "\x7bkey1\x7d == \x7bkey3\x7d".toList ∧
      ExpandPropsInString (fun _ => [("key1".toList, "42".toList)]) (placeholder "key3".toList)
        = placeholder "key3".toList :=
  expand_keeps_absent [("key1".toList, "42".toList)] _ "key3".toList _
    (fun _ => List.Perm.refl _) (by decide) (by decide) (by decide) (by decide)

/-- The closing clause of C4 fails when a key has a brace: over the map with
`k -> {k}` and `k}{k -> v` both occurrences of `{k}` in `{k}{k}` disappear. -/
theorem expand_self_reference_brace_key_counterexample :
    lookup [("k".toList, placeholder "k".toList), ("k\x7d\x7bk".toList, "v".toList)] "k".toList
        = some (placeholder "k".toList) ∧
      placeholder "k".toList <:+: "\x7bk\x7d\x7bk\x7d".toList ∧
      occ (placeholder "k".toList) "\x7bk\x7d\x7bk\x7d".toList = 2 ∧
      ExpandPropsInString
          (fun _ => [("k".toList, placeholder "k".toList), ("k\x7d\x7bk".toList, "v".toList)])
          "\x7bk\x7d\x7bk\x7d".toList = "v".toList ∧
      occ (placeholder "k".toList) "v".toList = 0 ∧
      ¬ placeholder "k".toList <:+: "v".toList := by
  decide

/-- C4 (amended): for every map `m` with an entry `k -> {k}` and every
string, `ExpandPropsInString` returns what it returns over `m` with `k`
removed, the other keys being visited in the same order; when no key of `m`
has a brace, every `{k}` stays: the output has at least as many occurrences
of `{k}` as the string, and contains `{k}` if the string does; and over the map with `key2 -> {key2}` and `key1 -> 42` the input
`{key1} == {key2} == true` expands to `42 == {key2} == true` for every
visiting order. -/
theorem expand_self_reference (m : Map) (orders o0 : Nat → Map) (k s : Str)
    (hv : Visits m orders) (hnd : (keys m).Nodup) (hk : lookup m k = some (placeholder k))
    (h0 : Visits [("key2".toList, "\x7bkey2\x7d".toList), ("key1".toList, "42".toList)] o0) :
    ExpandPropsInString orders s = ExpandPropsInString (fun i => without (orders i) k) s ∧
      Visits (without m k) (fun i => without (orders i) k) ∧
      ((∀ a ∈ keys m, NoBrace a) →
        occ (placeholder k) s ≤ occ (placeholder k) (ExpandPropsInString orders s) ∧
        (placeholder k <:+: s → placeholder k <:+: ExpandPropsInString orders s)) ∧
      ExpandPropsInString o0 "\x7bkey1\x7d == \x7bkey2\x7d == true".toList
        = "42 == \x7bkey2\x7d == true".toList := by
  have gen : ∀ (m : Map) (orders : Nat → Map) (k s : Str), Visits m orders → (keys m).Nodup →
      lookup m k = some (placeholder k) →
      ExpandPropsInString orders s = ExpandPropsInString (fun i => without (orders i) k) s := by
    intro m orders k s hv hnd hk
    refine expandLoop_without orders k ?_ 10 0 true s
    intro i kv hkv hkey
    have := lookup_eq_of_mem m k hnd kv ((hv i).subset hkv) hkey
    rw [hk] at this
    exact (Option.some.inj this).symm
  have hvis : Visits (without m k) (fun i => without (orders i) k) :=
    fun i => (hv i).filter _
  refine ⟨gen m orders k s hv hnd hk, hvis, ?_, ?_⟩
  · intro hm
    have hkm : k ∈ keys m := by
      have : ∃ kv ∈ m, kv.1 = k := by
        clear hvis gen hv hnd hm
        induction m with
        | nil => simp [lookup] at hk
        | cons e rest ih =>
          by_cases he : e.1 = k
          · exact ⟨e, by simp, he⟩
          · simp only [lookup, he, if_false] at hk
            obtain ⟨kv, hkv, hkk⟩ := ih hk
            exact ⟨kv, by simp [hkv], hkk⟩
      obtain ⟨kv, hkv, hkk⟩ := this
      exact hkk ▸ mem_keys_of_mem m kv hkv
    have ho : ∀ i, ∀ kv ∈ without (orders i) k, NoBrace kv.1 ∧ kv.1 ≠ k := by
      intro i kv hkv
      have hmem := List.mem_filter.mp hkv
      refine ⟨hm _ (mem_keys_of_mem m kv ((hv i).subset hmem.1)), ?_⟩
      simpa using hmem.2
    rw [gen m orders k s hv hnd hk]
    exact ⟨expand_occ _ k s (hm k hkm) ho, expand_keeps _ k s (hm k hkm) ho⟩
  · rw [gen _ o0 "key2".toList _ h0 (by decide) (by decide)]
    have : (fun i => without (o0 i) "key2".toList) = fun _ => [("key1".toList, "42".toList)] := by
      funext i
      have hp : (without (o0 i) "key2".toList).Perm [("key1".toList, "42".toList)] :=
        (h0 i).filter _
      exact List.perm_singleton.mp hp
    rw [this]
    decide

theorem expand_self_reference_witness :
    ExpandPropsInString
        (fun _ => [("key2".toList, "\x7bkey2\x7d".toList), ("key1".toList, "42".toList)])
        "\x7bkey2\x7d".toList
      = ExpandPropsInString
        (fun i => without ((fun _ => [("key2".toList, "\x7bkey2\x7d".toList),
          ("key1".toList, "42".toList)]) i) "key2".toList) "\x7bkey2\x7d".toList ∧
      occ (placeholder "key2".toList) "\x7bkey2\x7d".toList
        ≤ occ (placeholder "key2".toList) (ExpandPropsInString
          (fun _ => [("key2".toList, "\x7bkey2\x7d".toList), ("key1".toList, "42".toList)])
          "\x7bkey2\x7d".toList) ∧
      ExpandPropsInString
        (fun _ => [("key1".toList, "42".toList), ("key2".toList, "\x7bkey2\x7d".toList)])
        "\x7bkey1\x7d == \x7bkey2\x7d == true".toList = "42 == \x7bkey2\x7d == true".toList :=
  have h := expand_self_reference
    [("key2".toList, "\x7bkey2\x7d".toList), ("key1".toList, "42".toList)]
    (fun _ => [("key2".toList, "\x7bkey2\x7d".toList), ("key1".toList, "42".toList)])
    (fun _ => [("key1".toList, "42".toList), ("key2".toList, "\x7bkey2\x7d".toList)])
    "key2".toList "\x7bkey2\x7d".toList (fun _ => List.Perm.refl _) (by decide) (by decide)
    (fun _ => List.Perm.swap _ _ _)
  ⟨h.1, (h.2.2.1 (by decide)).1, h.2.2.2⟩

/-- The statement of C5 fails: over the map with `a -> {b}` and `b -> {a}`,
the input `{a}` comes out as `{a}` when every pass visits `a` first and as
`{b}` when every pass visits `b` first; and over the map with `a -> x` and
`a}{a -> y` the input `{a}{a}` comes out as `xx` or as `y`. -/
theorem expand_order_counterexample :
    (¬ ∀ (m : Map) (s : Str) (o1 o2 : Nat → Map), (keys m).Nodup → Visits m o1 → Visits m o2 →
        ExpandPropsInString o1 s = ExpandPropsInString o2 s) ∧
      ExpandPropsInString
          (fun _ => [("a".toList, "x".toList), ("a\x7d\x7ba".toList, "y".toList)])
          "\x7ba\x7d\x7ba\x7d".toList = "xx".toList ∧
      ExpandPropsInString
          (fun _ => [("a\x7d\x7ba".toList, "y".toList), ("a".toList, "x".toList)])
          "\x7ba\x7d\x7ba\x7d".toList = "y".toList := by
  refine ⟨?_, by decide, by decide⟩
  intro h
  have := h [("a".toList, "\x7bb\x7d".toList), ("b".toList, "\x7ba\x7d".toList)]
    "\x7ba\x7d".toList
    (fun _ => [("a".toList, "\x7bb\x7d".toList), ("b".toList, "\x7ba\x7d".toList)])
    (fun _ => [("b".toList, "\x7ba\x7d".toList), ("a".toList, "\x7bb\x7d".toList)])
    (by decide) (fun _ => List.Perm.refl _) (fun _ => List.Perm.swap _ _ _)
  revert this
  decide

/-- C5 (amended): for every map whose keys contain no brace and every string,
any two runs of `ExpandPropsInString` that both return a string without a
placeholder of a key of the map return the same string, whatever orders they
visit the keys in within the passes. -/
theorem expand_order_independent (m : Map) (s : Str) (o1 o2 : Nat → Map)
    (hnd : (keys m).Nodup) (hm : ∀ k ∈ keys m, NoBrace k) (h1 : Visits m o1)
    (h2 : Visits m o2) (e1 : Expanded m (ExpandPropsInString o1 s))
    (e2 : Expanded m (ExpandPropsInString o2 s)) :
    ExpandPropsInString o1 s = ExpandPropsInString o2 s := by
  obtain ⟨u, hu1, hu2⟩ := Steps_confluent m hnd hm s _ _
    (Steps_ExpandPropsInString m o1 s h1) (Steps_ExpandPropsInString m o2 s h2)
  rw [← Steps_of_Expanded m _ u e1 hu1, ← Steps_of_Expanded m _ u e2 hu2]

theorem expand_order_independent_witness :
    ExpandPropsInString
        (fun _ => [("key1".toList, "42".toList), ("key2".toList, "\x7bkey1\x7d".toList)])
        "\x7bkey1\x7d == \x7bkey2\x7d == true".toList
      = ExpandPropsInString
        (fun _ => [("key2".toList, "\x7bkey1\x7d".toList), ("key1".toList, "42".toList)])
        "\x7bkey1\x7d == \x7bkey2\x7d == true".toList :=
  expand_order_independent
    [("key1".toList, "42".toList), ("key2".toList, "\x7bkey1\x7d".toList)] _ _ _
    (by decide) (by decide) (fun _ => List.Perm.refl _) (fun _ => List.Perm.swap _ _ _)
    (by decide) (by decide)

/-- The last part of C6 fails for a pass that changes the string and changes
it back: over the map with `a -> {b}` and `b -> {a}`, a first pass that visits
`a` and then `b` takes `{a}` to `{b}` and back to `{a}`, so it leaves the
string as it was, yet the loop goes on, and with the later passes visiting `b`
first the output is `{b}`. -/
theorem expand_pass_round_trip_counterexample :
    ¬ (∀ (m : Map) (orders : Nat → Map) (s : Str) (j : Nat), (keys m).Nodup →
        Visits m orders → j < 10 → (passState orders s j).2 = true →
        (expandRange (orders j) (passState orders s j).1 false).1 = (passState orders s j).1 →
        ExpandPropsInString orders s
          = (expandRange (orders j) (passState orders s j).1 false).1) := by
  intro h
  have := h [("a".toList, "\x7bb\x7d".toList), ("b".toList, "\x7ba\x7d".toList)]
    (fun i => if i = 0 then [("a".toList, "\x7bb\x7d".toList), ("b".toList, "\x7ba\x7d".toList)]
      else [("b".toList, "\x7ba\x7d".toList), ("a".toList, "\x7bb\x7d".toList)])
    "\x7ba\x7d".toList 0 (by decide)
    (fun i => by
      by_cases hi : i = 0
      · simp [hi]
      · simp only [hi, if_false]
        exact List.Perm.swap _ _ _)
    (by decide) (by decide) (by decide)
  revert this
  decide

/-- C6 (amended): over the map with the single entry `k -> x{k}` the input
`{k}` expands to `x` ten times followed by `{k}`; the output of
`ExpandPropsInString` is the string after ten rounds of the loop, a round
after the loop has stopped changing nothing; and if pass `j` among the first
ten runs and none of its replacements changes the string, the output is the
string as it stood after (and before) that pass. -/
theorem expand_pass_cap (k : Str) (o1 orders : Nat → Map) (s : Str) (j : Nat)
    (h1 : Visits [(k, 'x' :: placeholder k)] o1) (hj : j < 10)
    (hrun : (passState orders s j).2 = true)
    (hstop : (expandRange (orders j) (passState orders s j).1 false).2 = false) :
    ExpandPropsInString o1 (placeholder k) = List.replicate 10 'x' ++ placeholder k ∧
      ExpandPropsInString orders s = (passState orders s 10).1 ∧
      ExpandPropsInString orders s = (expandRange (orders j) (passState orders s j).1 false).1 ∧
      ExpandPropsInString orders s = (passState orders s j).1 := by
  have hnext : passState orders s (j + 1)
      = expandRange (orders j) (passState orders s j).1 false := by
    rw [passState, hrun]
    simp
  have hstable := passState_stable orders s (j + 1) (10 - (j + 1)) (by rw [hnext, hstop])
  rw [show j + 1 + (10 - (j + 1)) = 10 by omega] at hstable
  have hout : ExpandPropsInString orders s
      = (expandRange (orders j) (passState orders s j).1 false).1 := by
    rw [ExpandPropsInString_eq_passState, hstable, hnext]
  refine ⟨?_, ExpandPropsInString_eq_passState orders s, hout, ?_⟩
  · have := expandLoop_growing o1 k (fun i => List.perm_singleton.mp (h1 i)) 10 0 0
    simpa [ExpandPropsInString] using this
  · rw [hout]
    exact (expandRange_unchanged _ _ _ hstop).1

theorem expand_pass_cap_witness :
    ExpandPropsInString (fun _ => [("k".toList, "x\x7bk\x7d".toList)]) "\x7bk\x7d".toList
        = "xxxxxxxxxx\x7bk\x7d".toList ∧
      ExpandPropsInString
          (fun _ => [("key1".toList, "42".toList), ("key2".toList, "\x7bkey1\x7d".toList)])
          "\x7bkey2\x7d".toList
        = (expandRange [("key1".toList, "42".toList), ("key2".toList, "\x7bkey1\x7d".toList)]
            "42".toList false).1 :=
  have h := expand_pass_cap "k".toList (fun _ => [("k".toList, "x\x7bk\x7d".toList)])
    (fun _ => [("key1".toList, "42".toList), ("key2".toList, "\x7bkey1\x7d".toList)])
    "\x7bkey2\x7d".toList 2 (fun _ => List.Perm.refl _) (by decide) (by decide) (by decide)
  ⟨h.1, h.2.2.1⟩

/-! ## Claims on `DeleteUnexpandedPropsFromString` -/

/-- C7: for a string `t0 + "{" + n1 + "}" + t1 + ... + "{" + nk + "}" + tk`
in which no `ti` has a brace and every `ni` is non-empty and has no brace and
no line feed, `DeleteUnexpandedPropsFromString` returns `t0 + t1 + ... + tk`;
expanding `{key1} == {key2} == {key3} == true` over the map with `key1 -> 42`
and `key2 -> {key1}` and cleaning the result gives `42 == 42 ==  == true`,
and over the map with `key2 -> 42` it gives ` == 42 ==  == true`, for every
visiting order. -/
theorem delete_removes_placeholders (t0 : Str) (parts : List (Str × Str)) (o1 o2 : Nat → Map)
    (h0 : NoBrace t0)
    (hp : ∀ p ∈ parts, p.1 ≠ [] ∧ NoBrace p.1 ∧ '\n' ∉ p.1 ∧ NoBrace p.2)
    (h1 : Visits [("key1".toList, "42".toList), ("key2".toList, "\x7bkey1\x7d".toList)] o1)
    (h2 : Visits [("key2".toList, "42".toList)] o2) :
    DeleteUnexpandedPropsFromString (withPlaceholders t0 parts) = textOnly t0 parts ∧
      DeleteUnexpandedPropsFromString
          (ExpandPropsInString o1 "\x7bkey1\x7d == \x7bkey2\x7d == \x7bkey3\x7d == true".toList)
        = "42 == 42 ==  == true".toList ∧
      DeleteUnexpandedPropsFromString
          (ExpandPropsInString o2 "\x7bkey1\x7d == \x7bkey2\x7d == \x7bkey3\x7d == true".toList)
        = " == 42 ==  == true".toList := by
  refine ⟨?_, ?_, ?_⟩
  · induction parts generalizing t0 with
    | nil =>
      have := Delete_append_of_no_open t0 [] h0.1
      simpa [withPlaceholders, textOnly, Delete_nil] using this
    | cons p rest ih =>
      obtain ⟨n, t⟩ := p
      obtain ⟨hn1, hn2, hn3, ht⟩ := hp (n, t) (by simp)
      rw [withPlaceholders, textOnly, List.append_assoc, Delete_append_of_no_open _ _ h0.1,
        Delete_placeholder _ _ hn1 hn2.2 hn3, ih t ht (fun q hq => hp q (by simp [hq]))]
  · have hmem : ∀ i, o1 i ∈
        [[("key1".toList, "42".toList), ("key2".toList, "\x7bkey1\x7d".toList)],
          [("key2".toList, "\x7bkey1\x7d".toList), ("key1".toList, "42".toList)]] := by
      intro i
      rcases perm_pair _ _ _ (h1 i) with e | e <;> simp [e]
    have hall : ∀ x ∈ allOutputs
        [[("key1".toList, "42".toList), ("key2".toList, "\x7bkey1\x7d".toList)],
          [("key2".toList, "\x7bkey1\x7d".toList), ("key1".toList, "42".toList)]] 10 true
        "\x7bkey1\x7d == \x7bkey2\x7d == \x7bkey3\x7d == true".toList,
        DeleteUnexpandedPropsFromString x = "42 == 42 ==  == true".toList := by
      decide
    exact hall _ (expandLoop_mem_allOutputs _ o1 hmem 10 0 true _)
  · have : o2 = fun _ => [("key2".toList, "42".toList)] := by
      funext i
      exact List.perm_singleton.mp (h2 i)
    rw [this]
    decide

theorem delete_removes_placeholders_witness :
    DeleteUnexpandedPropsFromString "a\x7bkey1\x7d == \x7bkey3\x7db".toList = "a == b".toList :=
  (delete_removes_placeholders "a".toList
    [("key1".toList, " == ".toList), ("key3".toList, "b".toList)]
    (fun _ => [("key1".toList, "42".toList), ("key2".toList, "\x7bkey1\x7d".toList)])
    (fun _ => [("key2".toList, "42".toList)]) (by decide) (by decide)
    (fun _ => List.Perm.refl _) (fun _ => List.Perm.refl _)).1

/-- C8: `DeleteUnexpandedPropsFromString` is idempotent. -/
theorem delete_idempotent (s : Str) :
    DeleteUnexpandedPropsFromString (DeleteUnexpandedPropsFromString s)
      = DeleteUnexpandedPropsFromString s := by
  induction s using delete_induction with
  | hnil => rfl
  | hit s n hm ih => rw [Delete_match s n hm, ih]
  | miss c cs hm ih =>
    rw [Delete_cons c cs hm, Delete_cons _ _ (matchLen_cons_Delete c cs hm), ih]

/-- C9: a string that has no `{` or has no `}` is returned unchanged by
`DeleteUnexpandedPropsFromString`. -/
theorem delete_no_pair (s : Str) (h : '{' ∉ s ∨ '}' ∉ s) :
    DeleteUnexpandedPropsFromString s = s := by
  rcases h with h | h
  · have := Delete_append_of_no_open s [] h
    simpa [Delete_nil] using this
  · induction s with
    | nil => rfl
    | cons c cs ih =>
      rw [Delete_cons c cs (matchLen_of_no_close _ h), ih (fun hm => h (by simp [hm]))]

theorem delete_no_pair_witness :
    DeleteUnexpandedPropsFromString "a \x7b b".toList = "a \x7b b".toList :=
  delete_no_pair "a \x7b b".toList (Or.inr (by decide))

/-! ## Claim on `FirstLevelOf` -/

/-- C10: for every map `m`, visited in any order, the sub-map of
`FirstLevelOf` under `p` has the entry `s -> v` if and only if `p` has no dot
and `m` has the entry `p + "." + s -> v`; hence every key of `m` with a dot
appears with its value under its first segment and in no other place, and
every entry of a sub-map comes from a key of `m` with a dot. -/
theorem firstLevel_split (m order : Map) (hnd : (keys m).Nodup) (ho : order.Perm m) :
    (∀ p s v, lookupNil (SubTree order p) s = some v ↔
        ('.' ∉ p ∧ lookup m (p ++ '.' :: s) = some v)) ∧
      (∀ key value, lookup m key = some value → '.' ∈ key →
        lookupNil (SubTree order (beforeDot key)) (afterDot key) = some value ∧
          ∀ p s w, p ++ '.' :: s = key → lookupNil (SubTree order p) s = some w →
            p = beforeDot key ∧ s = afterDot key ∧ w = value) ∧
      (∀ p s v, lookupNil (SubTree order p) s = some v →
        ∃ key, '.' ∈ key ∧ lookup m key = some v ∧ beforeDot key = p ∧ afterDot key = s) := by
  refine ⟨fun p s v => lookupNil_SubTree m order p s v hnd ho, ?_, ?_⟩
  · intro key value hkey hdot
    constructor
    · rw [lookupNil_SubTree m order _ _ _ hnd ho, ← split_at_dot key hdot]
      exact ⟨beforeDot_no_dot key, hkey⟩
    · intro p s w hps hw
      rw [lookupNil_SubTree m order _ _ _ hnd ho] at hw
      obtain ⟨hp, hl⟩ := hw
      subst hps
      rw [hkey] at hl
      exact ⟨(beforeDot_append p s hp).symm, (afterDot_append p s hp).symm,
        (Option.some.inj hl).symm⟩
  · intro p s v h
    rw [lookupNil_SubTree m order _ _ _ hnd ho] at h
    exact ⟨p ++ '.' :: s, by simp, h.2, beforeDot_append p s h.1, afterDot_append p s h.1⟩

theorem firstLevel_split_witness :
    lookupNil (SubTree [("a".toList, "0".toList), ("a.b.c".toList, "1".toList)] "a".toList)
        "b.c".toList = some "1".toList ↔
      ('.' ∉ "a".toList ∧
        lookup [("a.b.c".toList, "1".toList), ("a".toList, "0".toList)]
          ("a".toList ++ '.' :: "b.c".toList) = some "1".toList) :=
  (firstLevel_split [("a.b.c".toList, "1".toList), ("a".toList, "0".toList)]
    [("a".toList, "0".toList), ("a.b.c".toList, "1".toList)] (by decide)
    (List.Perm.swap _ _ _)).1 "a".toList "b.c".toList "1".toList

/-! ## More lemmas on `FirstLevelOf` -/

theorem keys_assign {β : Type} (m : List (Str × β)) (k : Str) (v : β) :
    keys (assign m k v) = if k ∈ keys m then keys m else keys m ++ [k] := by
  induction m with
  | nil => simp [assign, keys]
  | cons e rest ih =>
    obtain ⟨k0, v0⟩ := e
    by_cases h0 : k0 = k
    · subst h0
      simp only [assign, if_true, keys, List.map_cons, List.mem_cons, true_or]
    · have h1 : ¬ k = k0 := Ne.symm h0
      simp only [keys] at ih
      simp only [assign, h0, if_false, keys, List.map_cons, ih, List.mem_cons, h1, false_or]
      by_cases hk : k ∈ List.map Prod.fst rest
      · rw [if_pos hk, if_pos hk]
      · rw [if_neg hk, if_neg hk]
        rfl

theorem nodup_assign {β : Type} (m : List (Str × β)) (k : Str) (v : β)
    (h : (keys m).Nodup) : (keys (assign m k v)).Nodup := by
  rw [keys_assign]
  split
  · exact h
  · rename_i hk
    exact List.Nodup.append h (List.nodup_singleton k) (by simpa using hk)

/-- Every sub-map that the loop of `FirstLevelOf` builds has distinct keys. -/
theorem nodup_firstLevelRange (order : Map) (newMap : List (Str × Map))
    (h : ∀ p sub, lookup newMap p = some sub → (keys sub).Nodup) :
    ∀ p sub, lookup (firstLevelRange order newMap) p = some sub → (keys sub).Nodup := by
  induction order generalizing newMap with
  | nil => exact h
  | cons e rest ih =>
    obtain ⟨key, value⟩ := e
    rw [firstLevelRange]
    apply ih
    intro p sub hsub
    unfold firstLevelStep at hsub
    by_cases hdot : '.' ∈ key
    · simp only [hdot, not_true_eq_false, if_false, lookup_assign] at hsub
      by_cases hp : beforeDot key = p
      · simp only [hp, if_true, Option.some.injEq] at hsub
        rw [← hsub]
        apply nodup_assign
        cases hl : lookup newMap p with
        | none => simp [keys]
        | some sub0 => exact h p sub0 hl
      · simp only [hp, if_false] at hsub
        exact h p sub hsub
    · simp only [hdot, not_false_eq_true, if_true] at hsub
      exact h p sub hsub

/-- The loop of `FirstLevelOf` leaves no sub-map under `p` exactly when it
started with none and no visited key has `p` before its first dot. -/
theorem lookup_firstLevelRange_none (order : Map) (newMap : List (Str × Map)) (p : Str) :
    lookup (firstLevelRange order newMap) p = none ↔
      (lookup newMap p = none ∧ ∀ kv ∈ order, '.' ∈ kv.1 → beforeDot kv.1 ≠ p) := by
  induction order generalizing newMap with
  | nil => simp [firstLevelRange]
  | cons e rest ih =>
    obtain ⟨key, value⟩ := e
    rw [firstLevelRange, ih]
    unfold firstLevelStep
    by_cases hdot : '.' ∈ key
    · simp only [hdot, not_true_eq_false, if_false, lookup_assign]
      by_cases hp : beforeDot key = p
      · simp [hp, hdot]
      · simp [hp, hdot]
    · simp [hdot]

/-- Helper: under a key with a dot `FirstLevelOf` has no sub-map. -/
theorem SubTree_dotted (order : Map) (p : Str) (hp : '.' ∈ p) : SubTree order p = none := by
  unfold SubTree FirstLevelOf
  rw [lookup_firstLevelRange_none]
  refine ⟨rfl, ?_⟩
  intro kv _ _ he
  exact beforeDot_no_dot kv.1 (he ▸ hp)

/-! ## Lemmas on `TrimSpace` -/

theorem dropWhile_space_append_left (ws x : Str) (h : ∀ c ∈ ws, isSpace c = true) :
    (ws ++ x).dropWhile isSpace = x.dropWhile isSpace := by
  induction ws with
  | nil => rfl
  | cons c cs ih =>
    rw [List.cons_append, List.dropWhile_cons, if_pos (h c (by simp))]
    exact ih (fun d hd => h d (by simp [hd]))

theorem dropWhile_space_append_right (x ws : Str) (h : ∀ c ∈ ws, isSpace c = true) :
    (x ++ ws).dropWhile isSpace =
      if x.dropWhile isSpace = [] then [] else x.dropWhile isSpace ++ ws := by
  induction x with
  | nil =>
    simp only [List.nil_append, List.dropWhile_nil, if_true]
    rw [List.dropWhile_eq_nil_iff]
    exact h
  | cons c cs ih =>
    by_cases hc : isSpace c = true
    · rw [List.cons_append, List.dropWhile_cons, if_pos hc, List.dropWhile_cons, if_pos hc, ih]
    · rw [List.cons_append, List.dropWhile_cons, if_neg hc, List.dropWhile_cons, if_neg hc]
      simp

theorem TrimSpace_append_left (ws x : Str) (h : ∀ c ∈ ws, isSpace c = true) :
    TrimSpace (ws ++ x) = TrimSpace x := by
  unfold TrimSpace
  rw [dropWhile_space_append_left ws x h]

theorem TrimSpace_append_right (x ws : Str) (h : ∀ c ∈ ws, isSpace c = true) :
    TrimSpace (x ++ ws) = TrimSpace x := by
  unfold TrimSpace
  rw [dropWhile_space_append_right x ws h]
  split
  · rename_i he
    rw [he]
  · rw [List.reverse_append, dropWhile_space_append_left _ _
      (fun c hc => h c (List.mem_reverse.mp hc))]

/-- A string is its trimmed text between two runs of white space. -/
theorem TrimSpace_split (s : Str) :
    ∃ ws1 ws2, s = ws1 ++ TrimSpace s ++ ws2 ∧ (∀ c ∈ ws1, isSpace c = true) ∧
      (∀ c ∈ ws2, isSpace c = true) := by
  refine ⟨s.takeWhile isSpace, (((s.dropWhile isSpace).reverse).takeWhile isSpace).reverse,
    ?_, ?_, ?_⟩
  · have h1 : s = s.takeWhile isSpace ++ s.dropWhile isSpace :=
      (List.takeWhile_append_dropWhile isSpace s).symm
    have h2 := List.takeWhile_append_dropWhile isSpace (s.dropWhile isSpace).reverse
    have h3 := congrArg List.reverse h2
    rw [List.reverse_append, List.reverse_reverse] at h3
    unfold TrimSpace
    rw [List.append_assoc, h3]
    exact h1
  · intro c hc
    exact (List.mem_takeWhile_imp hc)
  · intro c hc
    exact (List.mem_takeWhile_imp (List.mem_reverse.mp hc))

theorem takeWhile_append_all (p : Char → Bool) (l1 l2 : Str) (h : ∀ c ∈ l1, p c = true) :
    (l1 ++ l2).takeWhile p = l1 ++ l2.takeWhile p := by
  induction l1 with
  | nil => rfl
  | cons c cs ih =>
    rw [List.cons_append, List.takeWhile_cons, if_pos (h c (by simp)),
      ih (fun d hd => h d (by simp [hd]))]
    rfl

theorem dropWhile_append_all (p : Char → Bool) (l1 l2 : Str) (h : ∀ c ∈ l1, p c = true) :
    (l1 ++ l2).dropWhile p = l2.dropWhile p := by
  induction l1 with
  | nil => rfl
  | cons c cs ih =>
    rw [List.cons_append, List.dropWhile_cons, if_pos (h c (by simp)),
      ih (fun d hd => h d (by simp [hd]))]

theorem takeWhile_append_stop (p : Char → Bool) (l1 l2 : Str) (h : ∃ c ∈ l1, p c = false) :
    (l1 ++ l2).takeWhile p = l1.takeWhile p := by
  induction l1 with
  | nil => simp at h
  | cons c cs ih =>
    by_cases hc : p c = true
    · rw [List.cons_append, List.takeWhile_cons, if_pos hc, List.takeWhile_cons, if_pos hc, ih]
      obtain ⟨d, hd, hpd⟩ := h
      rcases List.mem_cons.mp hd with rfl | hd
      · rw [hc] at hpd
        cases hpd
      · exact ⟨d, hd, hpd⟩
    · rw [List.cons_append, List.takeWhile_cons, if_neg hc, List.takeWhile_cons, if_neg hc]

theorem dropWhile_append_stop (p : Char → Bool) (l1 l2 : Str) (h : ∃ c ∈ l1, p c = false) :
    (l1 ++ l2).dropWhile p = l1.dropWhile p ++ l2 ∧ l1.dropWhile p ≠ [] := by
  induction l1 with
  | nil => simp at h
  | cons c cs ih =>
    by_cases hc : p c = true
    · rw [List.cons_append, List.dropWhile_cons, if_pos hc, List.dropWhile_cons, if_pos hc]
      apply ih
      obtain ⟨d, hd, hpd⟩ := h
      rcases List.mem_cons.mp hd with rfl | hd
      · rw [hc] at hpd
        cases hpd
      · exact ⟨d, hd, hpd⟩
    · rw [List.cons_append, List.dropWhile_cons, if_neg hc, List.dropWhile_cons, if_neg hc]
      simp

theorem not_eq_sign_of_space (ws : Str) (h : ∀ c ∈ ws, isSpace c = true) :
    ∀ c ∈ ws, decide (c ≠ '=') = true := by
  intro c hc
  have hs := h c hc
  simp only [ne_eq, decide_not, Bool.not_eq_true', decide_eq_false_iff_not]
  rintro rfl
  revert hs
  decide

theorem eq_sign_mem_TrimSpace (s : Str) : '=' ∈ TrimSpace s ↔ '=' ∈ s := by
  obtain ⟨ws1, ws2, hs, h1, h2⟩ := TrimSpace_split s
  have n1 : '=' ∉ ws1 := fun hm => by
    have := not_eq_sign_of_space ws1 h1 _ hm
    simp at this
  have n2 : '=' ∉ ws2 := fun hm => by
    have := not_eq_sign_of_space ws2 h2 _ hm
    simp at this
  constructor
  · intro h
    rw [hs]
    simp [h]
  · intro h
    rw [hs] at h
    simp only [List.mem_append] at h
    rcases h with (h | h) | h
    · exact absurd h n1
    · exact h
    · exact absurd h n2

/-- The trimmed text before the first `=` is the same in the line and in the
trimmed line. -/
theorem TrimSpace_takeWhile (s : Str) (h : '=' ∈ s) :
    TrimSpace ((TrimSpace s).takeWhile (· ≠ '=')) = TrimSpace (s.takeWhile (· ≠ '=')) := by
  obtain ⟨ws1, ws2, hs, h1, h2⟩ := TrimSpace_split s
  have hcore : ∃ c ∈ TrimSpace s, decide (c ≠ '=') = false :=
    ⟨'=', (eq_sign_mem_TrimSpace s).mpr h, by simp⟩
  conv_rhs => rw [hs]
  rw [List.append_assoc, takeWhile_append_all _ ws1 _ (not_eq_sign_of_space ws1 h1),
    takeWhile_append_stop _ _ ws2 hcore, TrimSpace_append_left ws1 _ h1]

/-- The trimmed text after the first `=` is the same in the line and in the
trimmed line. -/
theorem TrimSpace_dropWhile (s : Str) (h : '=' ∈ s) :
    TrimSpace (((TrimSpace s).dropWhile (· ≠ '=')).drop 1)
      = TrimSpace ((s.dropWhile (· ≠ '=')).drop 1) := by
  obtain ⟨ws1, ws2, hs, h1, h2⟩ := TrimSpace_split s
  have hcore : ∃ c ∈ TrimSpace s, decide (c ≠ '=') = false :=
    ⟨'=', (eq_sign_mem_TrimSpace s).mpr h, by simp⟩
  obtain ⟨hd, hne⟩ := dropWhile_append_stop (· ≠ '=') (TrimSpace s) ws2 hcore
  conv_rhs => rw [hs]
  rw [List.append_assoc, dropWhile_append_all _ ws1 _ (not_eq_sign_of_space ws1 h1), hd]
  obtain ⟨c, cs, hcs⟩ := List.exists_cons_of_ne_nil hne
  rw [hcs]
  simp only [List.cons_append, List.drop_succ_cons, List.drop_zero]
  rw [TrimSpace_append_right cs ws2 h2]

/-! ## Lemmas on `parseLine` and `LoadFromSlice` -/

theorem parseLine_skipped (osSuffix : Str) (m : Map) (line : Str) (h : Skipped line) :
    parseLine osSuffix m line = some m := by
  unfold parseLine
  simp only
  rw [if_pos]
  rcases h with h | h
  · exact Or.inl (by rw [h]; rfl)
  · exact Or.inr h

theorem not_skipped_cond (line : Str) (h : ¬ Skipped line) :
    ¬ ((TrimSpace line).length = 0 ∨ (TrimSpace line).head? = some '#') := by
  rintro (h1 | h1)
  · exact h (Or.inl (List.length_eq_zero.mp h1))
  · exact h (Or.inr h1)

theorem parseLine_entry (osSuffix : Str) (m : Map) (line : Str) (h : ¬ Skipped line)
    (he : '=' ∈ line) :
    parseLine osSuffix m line = some (assign m (lineKey osSuffix line) (lineValue line)) := by
  unfold parseLine
  simp only
  rw [if_neg (not_skipped_cond line h)]
  simp only [SplitN2, (eq_sign_mem_TrimSpace line).mpr he, if_true]
  rw [TrimSpace_takeWhile line he, TrimSpace_dropWhile line he]
  rfl

theorem parseLine_error (osSuffix : Str) (m : Map) (line : Str) (h : ¬ Skipped line)
    (he : '=' ∉ line) : parseLine osSuffix m line = none := by
  unfold parseLine
  simp only
  rw [if_neg (not_skipped_cond line h)]
  simp only [SplitN2, (eq_sign_mem_TrimSpace line).not.mpr he, if_false]

theorem Malformed_iff (line : Str) : Malformed line ↔ (¬ Skipped line ∧ '=' ∉ line) := by
  unfold Malformed
  rw [← eq_sign_mem_TrimSpace line]
  constructor
  · rintro ⟨h1, h2⟩
    refine ⟨h1, fun hm => h2 ?_⟩
    obtain ⟨key, value, hk⟩ := List.append_of_mem hm
    exact ⟨key, value, hk⟩
  · rintro ⟨h1, h2⟩
    refine ⟨h1, ?_⟩
    rintro ⟨key, value, hk⟩
    exact h2 (by rw [hk]; simp)

/-- The result of `parseLine` on each kind of line. -/
theorem parseLine_cases (osSuffix : Str) (m : Map) (line : Str) :
    (Skipped line ∧ parseLine osSuffix m line = some m) ∨
      (¬ Skipped line ∧ ¬ Malformed line ∧
        parseLine osSuffix m line = some (assign m (lineKey osSuffix line) (lineValue line))) ∨
      (Malformed line ∧ parseLine osSuffix m line = none) := by
  by_cases hs : Skipped line
  · exact Or.inl ⟨hs, parseLine_skipped osSuffix m line hs⟩
  · by_cases he : '=' ∈ line
    · refine Or.inr (Or.inl ⟨hs, ?_, parseLine_entry osSuffix m line hs he⟩)
      rw [Malformed_iff]
      exact fun h => h.2 he
    · exact Or.inr (Or.inr ⟨(Malformed_iff line).mpr ⟨hs, he⟩,
        parseLine_error osSuffix m line hs he⟩)

theorem not_Malformed_of_Skipped (line : Str) (h : Skipped line) : ¬ Malformed line :=
  fun hm => hm.1 h

/-- The loop of `LoadFromSlice` stops with an error at the first malformed line. -/
theorem loadRange_error (osSuffix : Str) (lines : List Str) (n i : Nat) (m0 : Map) :
    loadRange osSuffix n lines m0 = Except.error i ↔
      ∃ pre line post, lines = pre ++ line :: post ∧ i = n + pre.length ∧ Malformed line ∧
        ∀ l ∈ pre, ¬ Malformed l := by
  induction lines generalizing n m0 with
  | nil => simp [loadRange]
  | cons line rest ih =>
    have hstep : ∀ m1, parseLine osSuffix m0 line = some m1 → ¬ Malformed line →
        (loadRange osSuffix n (line :: rest) m0 = Except.error i ↔
          ∃ pre l post, line :: rest = pre ++ l :: post ∧ i = n + pre.length ∧ Malformed l ∧
            ∀ x ∈ pre, ¬ Malformed x) := by
      intro m1 hp hnm
      simp only [loadRange, hp]
      rw [ih]
      constructor
      · rintro ⟨pre, l, post, hl, hi, hm, hpre⟩
        refine ⟨line :: pre, l, post, by rw [hl]; rfl, by simp only [List.length_cons]; omega,
          hm, ?_⟩
        intro x hx
        rcases List.mem_cons.mp hx with rfl | hx
        · exact hnm
        · exact hpre x hx
      · rintro ⟨pre, l, post, hl, hi, hm, hpre⟩
        cases pre with
        | nil =>
          simp only [List.nil_append, List.cons.injEq] at hl
          exact absurd (hl.1 ▸ hm) hnm
        | cons p pre2 =>
          simp only [List.cons_append, List.cons.injEq] at hl
          refine ⟨pre2, l, post, hl.2, by simp only [List.length_cons] at hi; omega, hm, ?_⟩
          exact fun x hx => hpre x (by simp [hx])
    rcases parseLine_cases osSuffix m0 line with ⟨hs, hp⟩ | ⟨hs, hnm, hp⟩ | ⟨hm, hp⟩
    · exact hstep _ hp (not_Malformed_of_Skipped line hs)
    · exact hstep _ hp hnm
    · simp only [loadRange, hp, Except.error.injEq]
      constructor
      · rintro rfl
        exact ⟨[], line, rest, rfl, by simp, hm, by simp⟩
      · rintro ⟨pre, l, post, hl, hi, _, hpre⟩
        cases pre with
        | nil => simpa using hi.symm
        | cons p pre2 =>
          simp only [List.cons_append, List.cons.injEq] at hl
          exact absurd (hl.1 ▸ hm) (hpre p (by simp))

/-- The loop of `LoadFromSlice` returns a map when no line is malformed, the
same map as for the lines that are not skipped. -/
theorem loadRange_ok (osSuffix : Str) (lines : List Str) (n n2 : Nat) (m0 : Map)
    (h : ∀ l ∈ lines, ¬ Malformed l) :
    ∃ m, loadRange osSuffix n lines m0 = Except.ok m ∧
      loadRange osSuffix n2 (lines.filter (fun l => ¬ Skipped l)) m0 = Except.ok m := by
  induction lines generalizing n n2 m0 with
  | nil => exact ⟨m0, rfl, rfl⟩
  | cons line rest ih =>
    have hrest : ∀ l ∈ rest, ¬ Malformed l := fun l hl => h l (by simp [hl])
    rcases parseLine_cases osSuffix m0 line with ⟨hs, hp⟩ | ⟨hs, _, hp⟩ | ⟨hm, _⟩
    · obtain ⟨m, h1, h2⟩ := ih (n + 1) n2 m0 hrest
      refine ⟨m, by simp only [loadRange, hp]; exact h1, ?_⟩
      rw [List.filter_cons_of_neg (by simpa using hs)]
      exact h2
    · obtain ⟨m, h1, h2⟩ := ih (n + 1) (n2 + 1) _ hrest
      refine ⟨m, by simp only [loadRange, hp]; exact h1, ?_⟩
      rw [List.filter_cons_of_pos (by simpa using hs)]
      simp only [loadRange, hp]
      exact h2
    · exact absurd hm (h line (by simp))

/-- The entries of the map that the loop of `LoadFromSlice` returns: the last
line for a key gives its value, and a key of no line keeps the value it had
when the loop started. -/
theorem loadRange_lookup (osSuffix : Str) (lines : List Str) (n : Nat) (m0 m : Map)
    (h : loadRange osSuffix n lines m0 = Except.ok m) (k : Str) :
    (∀ pre line post, lines = pre ++ line :: post → ¬ Skipped line →
        lineKey osSuffix line = k → (∀ l ∈ post, Skipped l ∨ lineKey osSuffix l ≠ k) →
        lookup m k = some (lineValue line)) ∧
      ((∀ l ∈ lines, Skipped l ∨ lineKey osSuffix l ≠ k) → lookup m k = lookup m0 k) := by
  induction lines generalizing n m0 with
  | nil =>
    simp only [loadRange, Except.ok.injEq] at h
    subst h
    constructor
    · intro pre line post hl
      simp at hl
    · intro _
      rfl
  | cons line rest ih =>
    have key : ∀ m1, parseLine osSuffix m0 line = some m1 →
        ((Skipped line ∨ lineKey osSuffix line ≠ k) → lookup m1 k = lookup m0 k) →
        (¬ Skipped line → lineKey osSuffix line = k → lookup m1 k = some (lineValue line)) →
        ((∀ pre l post, line :: rest = pre ++ l :: post → ¬ Skipped l →
          lineKey osSuffix l = k → (∀ x ∈ post, Skipped x ∨ lineKey osSuffix x ≠ k) →
          lookup m k = some (lineValue l)) ∧
        ((∀ l ∈ line :: rest, Skipped l ∨ lineKey osSuffix l ≠ k) →
          lookup m k = lookup m0 k)) := by
      intro m1 hp hother hsame
      simp only [loadRange, hp] at h
      obtain ⟨ih1, ih2⟩ := ih (n + 1) m1 h
      constructor
      · intro pre l post hl hs hk hpost
        cases pre with
        | nil =>
          simp only [List.nil_append, List.cons.injEq] at hl
          obtain ⟨rfl, rfl⟩ := hl
          rw [ih2 hpost]
          exact hsame hs hk
        | cons p pre2 =>
          simp only [List.cons_append, List.cons.injEq] at hl
          exact ih1 pre2 l post hl.2 hs hk hpost
      · intro hall
        rw [ih2 (fun l hl => hall l (by simp [hl]))]
        exact hother (hall line (by simp))
    rcases parseLine_cases osSuffix m0 line with ⟨hs, hp⟩ | ⟨hs, _, hp⟩ | ⟨_, hp⟩
    · exact key m0 hp (fun _ => rfl) (fun hns => absurd hs hns)
    · refine key _ hp ?_ ?_
      · rintro (h1 | h1)
        · exact absurd h1 hs
        · rw [lookup_assign, if_neg h1]
      · intro _ hk
        rw [lookup_assign, if_pos hk]
    · simp [loadRange, hp] at h

theorem first_Malformed (lines : List Str) (h : ∃ line ∈ lines, Malformed line) :
    ∃ pre line post, lines = pre ++ line :: post ∧ Malformed line ∧
      ∀ l ∈ pre, ¬ Malformed l := by
  induction lines with
  | nil => simp at h
  | cons line rest ih =>
    by_cases hm : Malformed line
    · exact ⟨[], line, rest, rfl, hm, by simp⟩
    · obtain ⟨l, hl, hlm⟩ := h
      have hrest : ∃ x ∈ rest, Malformed x := by
        rcases List.mem_cons.mp hl with rfl | hl
        · exact absurd hlm hm
        · exact ⟨l, hl, hlm⟩
      obtain ⟨pre, x, post, h1, h2, h3⟩ := ih hrest
      refine ⟨line :: pre, x, post, by rw [h1]; rfl, h2, ?_⟩
      intro y hy
      rcases List.mem_cons.mp hy with rfl | hy
      · exact hm
      · exact h3 y hy

/-! ## Lemmas on `ReplaceFirst` and on lines of the form `k=v` -/

theorem replaceFirst_absent (old new s : Str) (h : ¬ old <:+: s) :
    replaceFirst old new s = s := by
  induction s with
  | nil => rfl
  | cons c cs ih =>
    rw [List.infix_cons_iff] at h
    push_neg at h
    rw [replaceFirst, if_neg (by simpa using h.1), ih h.2]

theorem replaceFirst_at (old new x y : Str) (hne : old ≠ []) (hfirst : FirstAt old x) :
    replaceFirst old new (x ++ old ++ y) = x ++ new ++ y := by
  induction x with
  | nil =>
    obtain ⟨c, cs, rfl⟩ := List.exists_cons_of_ne_nil hne
    simp only [List.nil_append, List.cons_append, replaceFirst]
    rw [if_pos (by simp)]
    simp
  | cons e x2 ih =>
    have hnp : ¬ old <+: e :: (x2 ++ old ++ y) := by
      intro hp
      have hdl : old.dropLast ++ [old.getLast hne] = old := List.dropLast_append_getLast hne
      have hp2 : e :: x2 ++ old.dropLast <+: e :: (x2 ++ old ++ y) :=
        ⟨[old.getLast hne] ++ y, by
          conv_rhs => rw [← hdl]
          simp⟩
      have hlen : old.length ≤ (e :: x2 ++ old.dropLast).length := by
        simp only [List.cons_append, List.length_cons, List.length_append,
          List.length_dropLast]
        omega
      exact hfirst (List.prefix_of_prefix_length_le hp hp2 hlen).isInfix
    have hrest : FirstAt old x2 := by
      intro h3
      exact hfirst (by
        rw [List.cons_append, List.infix_cons_iff]
        exact Or.inr h3)
    have e1 : e :: x2 ++ old ++ y = e :: (x2 ++ old ++ y) := rfl
    rw [e1, replaceFirst, if_neg (by simpa using hnp), ih hrest]
    rfl

theorem TrimSpace_length_le (s : Str) : (TrimSpace s).length ≤ (s.dropWhile isSpace).length := by
  unfold TrimSpace
  rw [List.length_reverse]
  calc ((s.dropWhile isSpace).reverse.dropWhile isSpace).length
      ≤ (s.dropWhile isSpace).reverse.length := (List.dropWhile_sublist isSpace).length_le
    _ = (s.dropWhile isSpace).length := List.length_reverse _

/-- A trimmed text does not start with white space. -/
theorem trimmed_head (c : Char) (t : Str) (h : TrimSpace (c :: t) = c :: t) :
    isSpace c = false := by
  by_contra hc
  have hc2 : isSpace c = true := by simpa using hc
  have h1 := TrimSpace_length_le (c :: t)
  rw [h, List.dropWhile_cons, if_pos hc2] at h1
  have h2 := (List.dropWhile_sublist isSpace (l := t)).length_le
  simp only [List.length_cons] at h1
  omega

/-- Trimming keeps a first unit that is not white space. -/
theorem TrimSpace_head (c : Char) (t : Str) (h : isSpace c = false) :
    ∃ r, TrimSpace (c :: t) = c :: r := by
  obtain ⟨ws1, ws2, hs, h1, h2⟩ := TrimSpace_split (c :: t)
  cases ws1 with
  | cons d ds =>
    simp only [List.cons_append, List.cons.injEq] at hs
    have := h1 d (by simp)
    rw [← hs.1, h] at this
    cases this
  | nil =>
    cases hT : TrimSpace (c :: t) with
    | cons d r =>
      rw [hT] at hs
      simp only [List.nil_append, List.cons_append, List.cons.injEq] at hs
      exact ⟨r, by rw [hs.1]⟩
    | nil =>
      rw [hT] at hs
      simp only [List.nil_append] at hs
      have := h2 c (by rw [← hs]; simp)
      rw [h] at this
      cases this

/-- What `parseLine` stores for a line `k=v` whose key part `k` is trimmed,
has no `=` and does not start with `#`. -/
theorem parseLine_key_value (osSuffix : Str) (m : Map) (k v : Str) (hk1 : TrimSpace k = k)
    (hk2 : '=' ∉ k) (hk3 : k.head? ≠ some '#') :
    parseLine osSuffix m (k ++ '=' :: v)
      = some (assign m (ReplaceFirst k ('.' :: osSuffix) []) (TrimSpace v)) := by
  have hns : ¬ Skipped (k ++ '=' :: v) := by
    have hhead : ∃ c r, TrimSpace (k ++ '=' :: v) = c :: r ∧ c ≠ '#' := by
      cases k with
      | nil =>
        obtain ⟨r, hr⟩ := TrimSpace_head '=' v (by decide)
        exact ⟨'=', r, hr, by decide⟩
      | cons c t =>
        obtain ⟨r, hr⟩ := TrimSpace_head c (t ++ '=' :: v) (trimmed_head c t hk1)
        exact ⟨c, r, hr, fun e => hk3 (by simp [e])⟩
    obtain ⟨c, r, hcr, hc⟩ := hhead
    rintro (h | h)
    · rw [hcr] at h
      cases h
    · rw [hcr] at h
      simp only [List.head?_cons, Option.some.injEq] at h
      exact hc h
  have hall : ∀ c ∈ k, decide (c ≠ '=') = true := by
    intro c hc
    simp only [ne_eq, decide_not, Bool.not_eq_true', decide_eq_false_iff_not]
    rintro rfl
    exact hk2 hc
  rw [parseLine_entry osSuffix m _ hns (by simp)]
  unfold lineKey lineValue
  rw [takeWhile_append_all _ k _ hall, dropWhile_append_all _ k _ hall]
  simp [hk1]

/-! ## Lemmas on the heap and on `Merge` -/

theorem length_store (h : Heap) (a : Nat) (key value : Str) :
    (store h a key value).length = h.length := by
  induction h generalizing a with
  | nil => rfl
  | cons t rest ih =>
    cases a with
    | zero => rfl
    | succ a => simp [store, ih]

theorem deref_store_same (h : Heap) (a : Nat) (key value : Str) (ha : a < h.length) :
    deref (store h a key value) (some a) = assign (deref h (some a)) key value := by
  induction h generalizing a with
  | nil => simp at ha
  | cons t rest ih =>
    cases a with
    | zero => rfl
    | succ a =>
      have := ih a (by simpa using ha)
      simpa [deref, store] using this

theorem deref_store_other (h : Heap) (a b : Nat) (key value : Str) (hb : b ≠ a) :
    deref (store h a key value) (some b) = deref h (some b) := by
  induction h generalizing a b with
  | nil => rfl
  | cons t rest ih =>
    cases a with
    | zero =>
      cases b with
      | zero => exact absurd rfl hb
      | succ b => rfl
    | succ a =>
      cases b with
      | zero => rfl
      | succ b =>
        have := ih a b (fun e => hb (by rw [e]))
        simpa [deref, store] using this

/-- The inner loop of `Merge` on a target that is not nil: it does not panic,
changes only the object of the target, and assigns the entries one by one. -/
theorem mergeRange_some (a : Nat) (source : Map) (h : Heap) (ha : a < h.length) :
    ∃ next, mergeRange (some a) source h = some next ∧ next.length = h.length ∧
      (∀ b, b ≠ a → deref next (some b) = deref h (some b)) ∧
      deref next (some a) = overlayOne (deref h (some a)) source := by
  induction source generalizing h with
  | nil => exact ⟨h, rfl, rfl, fun _ _ => rfl, rfl⟩
  | cons kv rest ih =>
    obtain ⟨key, value⟩ := kv
    obtain ⟨next, h1, h2, h3, h4⟩ := ih (store h a key value) (by rw [length_store]; exact ha)
    refine ⟨next, h1, by rw [h2, length_store], ?_, ?_⟩
    · intro b hb
      rw [h3 b hb, deref_store_other h a b key value hb]
    · rw [h4, deref_store_same h a key value ha]
      rfl

theorem lookup_none_iff {β : Type} (m : List (Str × β)) (k : Str) :
    lookup m k = none ↔ k ∉ keys m := by
  induction m with
  | nil => simp [lookup, keys]
  | cons e rest ih =>
    obtain ⟨k0, v0⟩ := e
    by_cases h0 : k0 = k
    · simp only [lookup, h0, if_true, keys, List.map_cons, List.mem_cons, true_or,
        not_true_eq_false]
      exact ⟨fun h => (by cases h), fun h => h.elim⟩
    · have h1 : ¬ k = k0 := Ne.symm h0
      simp only [keys] at ih
      simp only [lookup, h0, if_false, keys, List.map_cons, List.mem_cons, h1, false_or]
      exact ih

theorem overlayOne_cons (t : Map) (key value : Str) (rest : Map) :
    overlayOne t ((key, value) :: rest) = overlayOne (assign t key value) rest := rfl

/-- After a source is merged, a key of the source has the value of the source
and every other key keeps its value. -/
theorem lookup_overlayOne (t source : Map) (k : Str) (hnd : (keys source).Nodup) :
    lookup (overlayOne t source) k =
      match lookup source k with
      | some v => some v
      | none => lookup t k := by
  induction source generalizing t with
  | nil => rfl
  | cons kv rest ih =>
    obtain ⟨key, value⟩ := kv
    simp only [keys, List.map_cons, List.nodup_cons] at hnd
    rw [overlayOne_cons, ih _ hnd.2, lookup_assign]
    by_cases hk : key = k
    · subst hk
      have : lookup rest key = none := (lookup_none_iff rest key).mpr hnd.1
      simp [lookup, this]
    · simp [lookup, hk]

theorem keys_overlayOne (t source : Map) (k : Str) (h : k ∈ keys (overlayOne t source)) :
    k ∈ keys t ∨ k ∈ keys source := by
  induction source generalizing t with
  | nil => exact Or.inl h
  | cons kv rest ih =>
    obtain ⟨key, value⟩ := kv
    rw [overlayOne_cons] at h
    rcases ih _ h with h1 | h1
    · rw [keys_assign] at h1
      split at h1
      · exact Or.inl h1
      · rcases List.mem_append.mp h1 with h2 | h2
        · exact Or.inl h2
        · right
          simp only [List.mem_singleton] at h2
          simp [keys, h2]
    · right
      simp only [keys, List.map_cons, List.mem_cons]
      exact Or.inr h1

theorem nodup_overlayOne (t source : Map) (h : (keys t).Nodup) :
    (keys (overlayOne t source)).Nodup := by
  induction source generalizing t with
  | nil => exact h
  | cons kv rest ih =>
    obtain ⟨key, value⟩ := kv
    rw [overlayOne_cons]
    exact ih _ (nodup_assign t key value h)

theorem assign_new (t : Map) (k v : Str) (h : k ∉ keys t) : assign t k v = t ++ [(k, v)] := by
  induction t with
  | nil => rfl
  | cons e rest ih =>
    obtain ⟨k0, v0⟩ := e
    simp only [keys, List.map_cons, List.mem_cons, not_or] at h
    have h0 : ¬ k0 = k := Ne.symm h.1
    simp only [assign, h0, if_false, List.cons_append, List.cons.injEq, true_and]
    exact ih h.2

/-- Merging a source whose keys are new for the target appends its entries. -/
theorem overlayOne_append (t source : Map) (h : (keys (t ++ source)).Nodup) :
    overlayOne t source = t ++ source := by
  induction source generalizing t with
  | nil => simp [overlayOne]
  | cons kv rest ih =>
    obtain ⟨key, value⟩ := kv
    have hnew : key ∉ keys t := by
      intro hm
      simp only [keys, List.map_append, List.map_cons] at h hm
      have := (List.nodup_append.mp h).2.2
      exact this hm (by simp)
    rw [overlayOne_cons, assign_new t key value hnew, ih]
    · simp
    · simpa using h

theorem store_last (h : Heap) (t : Map) (key value : Str) :
    store (h ++ [t]) h.length key value = h ++ [assign t key value] := by
  induction h with
  | nil => rfl
  | cons x rest ih => simp [store, ih]

theorem mergeRange_last (h : Heap) (t source : Map) :
    mergeRange (some h.length) source (h ++ [t]) = some (h ++ [overlayOne t source]) := by
  induction source generalizing t with
  | nil => rfl
  | cons kv rest ih =>
    obtain ⟨key, value⟩ := kv
    simp only [mergeRange, store_last, ih]
    rfl

theorem deref_append_old (h h2 : Heap) (a : Nat) (ha : a < h.length) :
    deref (h ++ h2) (some a) = deref h (some a) := by
  simp only [deref, List.getD_eq_getElem?_getD]
  rw [List.getElem?_append_left ha]

theorem deref_append_new (h : Heap) (t : Map) : deref (h ++ [t]) (some h.length) = t := by
  simp [deref, List.getD_eq_getElem?_getD]

theorem nodup_deref (h : Heap) (m : Option Nat) (hwf : ∀ t ∈ h, (keys t).Nodup) :
    (keys (deref h m)).Nodup := by
  cases m with
  | none => simp [deref, keys]
  | some a =>
    simp only [deref, List.getD_eq_getElem?_getD]
    cases hg : h[a]? with
    | none => simp [keys]
    | some t => exact hwf t (List.getElem?_mem hg)

/-- Helper: `Clone` puts a new object with the visited entries at the end of
the heap and returns its address. -/
theorem Clone_eq (h : Heap) (order : Map) :
    Clone h order = some (h ++ [overlayOne [] order], some h.length) := by
  simp [Clone, mergeRange_last]

theorem assign_same (t : Map) (k v : Str) (h : lookup t k = some v) : assign t k v = t := by
  induction t with
  | nil => simp [lookup] at h
  | cons e rest ih =>
    obtain ⟨k0, v0⟩ := e
    by_cases h0 : k0 = k
    · simp only [lookup, h0, if_true, Option.some.injEq] at h
      simp only [assign, h0, if_true, h]
    · simp only [lookup, h0, if_false] at h
      simp only [assign, h0, if_false, ih h]

/-- The assignment of the value that a key has already changes nothing. -/
theorem store_same (h : Heap) (a : Nat) (k v : Str)
    (hl : lookup (deref h (some a)) k = some v) : store h a k v = h := by
  induction h generalizing a with
  | nil => rfl
  | cons t rest ih =>
    cases a with
    | zero =>
      have hl2 : lookup t k = some v := hl
      simp only [store, assign_same t k v hl2]
    | succ a =>
      have hl2 : lookup (deref rest (some a)) k = some v := hl
      simp only [store, ih a hl2]

theorem mergeLive_none (m source : Option Nat) (key : Str) (rest : List Str) (h : Heap)
    (hl : lookup (deref h source) key = none) :
    mergeLive m source (key :: rest) h = mergeLive m source rest h := by
  simp only [mergeLive, hl]

theorem mergeLive_hit (a : Nat) (source : Option Nat) (key value : Str) (rest : List Str)
    (h : Heap) (hl : lookup (deref h source) key = some value) :
    mergeLive (some a) source (key :: rest) h
      = mergeLive (some a) source rest (store h a key value) := by
  simp only [mergeLive, hl]

/-- The loop of `Merge` over a source that is the target changes nothing. -/
theorem mergeLive_self (a : Nat) (ks : List Str) (h : Heap) :
    mergeLive (some a) (some a) ks h = some h := by
  induction ks with
  | nil => rfl
  | cons k rest ih =>
    cases hl : lookup (deref h (some a)) k with
    | none => rw [mergeLive_none _ _ _ _ _ hl, ih]
    | some v => rw [mergeLive_hit _ _ _ _ _ _ hl, store_same h a k v hl, ih]

theorem deref_store_source (h : Heap) (a : Nat) (source : Option Nat) (key value : Str)
    (hs : source ≠ some a) : deref (store h a key value) source = deref h source := by
  cases source with
  | none => rfl
  | some b => exact deref_store_other h a b key value (fun e => hs (by rw [e]))

/-- The loop of `Merge` over a source that is another map than the target
assigns the entries that the source has when the loop starts. -/
theorem mergeLive_other (m source : Option Nat) (order : Map) (h : Heap) (hs : source ≠ m)
    (hsub : ∀ kv ∈ order, lookup (deref h source) kv.1 = some kv.2) :
    mergeLive m source (keys order) h = mergeRange m order h := by
  induction order generalizing h with
  | nil => rfl
  | cons kv rest ih =>
    obtain ⟨key, value⟩ := kv
    have hl : lookup (deref h source) key = some value := hsub (key, value) (by simp)
    cases m with
    | none => simp only [keys, List.map_cons, mergeLive, hl, mergeRange]
    | some a =>
      show mergeLive (some a) source (key :: keys rest) h = _
      rw [mergeLive_hit _ _ _ _ _ _ hl]
      refine ih _ ?_
      intro kv hkv
      rw [deref_store_source h a source key value hs]
      exact hsub kv (by simp [hkv])

theorem lookup_perm (order t : Map) (k : Str) (hnd : (keys t).Nodup) (ho : order.Perm t) :
    lookup order k = lookup t k := by
  have hnd2 : (keys order).Nodup := ((ho.map Prod.fst).nodup_iff).mpr hnd
  apply Option.ext
  intro v
  show lookup order k = some v ↔ lookup t k = some v
  rw [lookup_iff_mem order k v hnd2, lookup_iff_mem t k v hnd]
  exact ho.mem_iff

/-- One loop of `Merge` on a target that is not nil: no panic, only the object
of the target changes; a source that is the target leaves it as it is, and
another source gives its values to its keys. -/
theorem mergeLive_some (a : Nat) (source : Option Nat) (order : Map) (h : Heap)
    (ha : a < h.length) (hnd : (keys (deref h source)).Nodup)
    (ho : order.Perm (deref h source)) :
    ∃ next, mergeLive (some a) source (keys order) h = some next ∧ next.length = h.length ∧
      (∀ b, b ≠ a → deref next (some b) = deref h (some b)) ∧
      (source = some a → deref next (some a) = deref h (some a)) ∧
      (source ≠ some a → deref next (some a) = overlayOne (deref h (some a)) order) := by
  by_cases hs : source = some a
  · subst hs
    exact ⟨h, mergeLive_self a _ h, rfl, fun _ _ => rfl, fun _ => rfl, fun hne => absurd rfl hne⟩
  · obtain ⟨next, h1, h2, h3, h4⟩ := mergeRange_some a order h ha
    refine ⟨next, ?_, h2, h3, fun e => absurd e hs, fun _ => h4⟩
    rw [mergeLive_other (some a) source order h hs, h1]
    intro kv hkv
    exact lookup_eq_of_mem _ _ hnd kv (ho.subset hkv) rfl

/-- The loops of `Merge` on a target that is not nil: no panic, only the
object of the target changes, a key gets the value of the last source other
than the target that has it, and a key of no such source keeps its value. -/
theorem mergeLoop_some (visit : Nat → Map → Map) (hvis : ∀ i t, (visit i t).Perm t) (a : Nat)
    (sources : List (Option Nat)) (i : Nat) (h : Heap) (ha : a < h.length)
    (hwf : ∀ s, (keys (deref h s)).Nodup) :
    ∃ next, mergeLoop visit (some a) i sources h = some next ∧ next.length = h.length ∧
      (∀ b, b ≠ a → deref next (some b) = deref h (some b)) ∧
      ∀ k,
        (∀ pre src post, sources = pre ++ src :: post → src ≠ some a →
          k ∈ keys (deref h src) → (∀ s ∈ post, s ≠ some a → k ∉ keys (deref h s)) →
          lookup (deref next (some a)) k = lookup (deref h src) k) ∧
        ((∀ s ∈ sources, s ≠ some a → k ∉ keys (deref h s)) →
          lookup (deref next (some a)) k = lookup (deref h (some a)) k) := by
  induction sources generalizing i h with
  | nil =>
    refine ⟨h, rfl, rfl, fun _ _ => rfl, fun k => ⟨?_, fun _ => rfl⟩⟩
    intro pre src post hl
    simp at hl
  | cons source rest ih =>
    obtain ⟨mid, h1, h2, h3, h4, h5⟩ :=
      mergeLive_some a source (visit i (deref h source)) h ha (hwf source) (hvis i _)
    have hother : ∀ s, s ≠ some a → deref mid s = deref h s := by
      intro s hs
      cases s with
      | none => rfl
      | some b => exact h3 b (fun e => hs (by rw [e]))
    have hndo : (keys (visit i (deref h source))).Nodup :=
      (((hvis i (deref h source)).map Prod.fst).nodup_iff).mpr (hwf source)
    have hwf2 : ∀ s, (keys (deref mid s)).Nodup := by
      intro s
      by_cases hs : s = some a
      · subst hs
        by_cases hsrc : source = some a
        · rw [h4 hsrc]
          exact hwf _
        · rw [h5 hsrc]
          exact nodup_overlayOne _ _ (hwf _)
      · rw [hother s hs]
        exact hwf s
    have hmid : ∀ k, lookup (deref mid (some a)) k =
        if source = some a then lookup (deref h (some a)) k
        else match lookup (deref h source) k with
          | some v => some v
          | none => lookup (deref h (some a)) k := by
      intro k
      by_cases hsrc : source = some a
      · rw [if_pos hsrc, h4 hsrc]
      · rw [if_neg hsrc, h5 hsrc, lookup_overlayOne _ _ k hndo,
          lookup_perm _ _ k (hwf source) (hvis i _)]
    obtain ⟨next, g1, g2, g3, g4⟩ := ih (i + 1) mid (by rw [h2]; exact ha) hwf2
    refine ⟨next, by simp only [mergeLoop, h1]; exact g1, by rw [g2, h2], ?_, ?_⟩
    · intro b hb
      rw [g3 b hb, h3 b hb]
    · intro k
      obtain ⟨ih1, ih2⟩ := g4 k
      constructor
      · intro pre src post hl hsrc hk hpost
        cases pre with
        | nil =>
          simp only [List.nil_append, List.cons.injEq] at hl
          obtain ⟨rfl, rfl⟩ := hl
          rw [ih2 (fun s hs hne => by rw [hother s hne]; exact hpost s hs hne), hmid k,
            if_neg hsrc]
          cases hlk : lookup (deref h source) k with
          | some v => rfl
          | none => exact absurd hk ((lookup_none_iff _ k).mp hlk)
        | cons p pre2 =>
          simp only [List.cons_append, List.cons.injEq] at hl
          obtain ⟨rfl, hl2⟩ := hl
          have := ih1 pre2 src post hl2 hsrc (by rw [hother src hsrc]; exact hk)
            (fun s hs hne => by rw [hother s hne]; exact hpost s hs hne)
          rw [this, hother src hsrc]
      · intro hall
        rw [ih2 (fun s hs hne => by rw [hother s hne]; exact hall s (by simp [hs]) hne), hmid k]
        by_cases hsrc : source = some a
        · rw [if_pos hsrc]
        · rw [if_neg hsrc, (lookup_none_iff _ k).mpr (hall source (by simp) hsrc)]

/-- One loop of `Merge` on a target that is not nil, whatever the keys that
are visited: no panic, only the object of the target changes, and its keys
afterwards are keys that it or the source had before. -/
theorem mergeLive_keys (a : Nat) (source : Option Nat) (ks : List Str) (h : Heap)
    (ha : a < h.length) :
    ∃ next, mergeLive (some a) source ks h = some next ∧ next.length = h.length ∧
      (∀ b, b ≠ a → deref next (some b) = deref h (some b)) ∧
      ∀ k ∈ keys (deref next (some a)),
        k ∈ keys (deref h (some a)) ∨ k ∈ keys (deref h source) := by
  induction ks generalizing h with
  | nil => exact ⟨h, rfl, rfl, fun _ _ => rfl, fun k hk => Or.inl hk⟩
  | cons key rest ih =>
    cases hl : lookup (deref h source) key with
    | none =>
      rw [mergeLive_none _ _ _ _ _ hl]
      exact ih h ha
    | some value =>
      rw [mergeLive_hit _ _ _ _ _ _ hl]
      obtain ⟨next, h1, h2, h3, h4⟩ := ih (store h a key value) (by rw [length_store]; exact ha)
      have hkey : key ∈ keys (deref h source) := by
        by_contra hno
        rw [(lookup_none_iff _ key).mpr hno] at hl
        cases hl
      have hta : ∀ k ∈ keys (deref (store h a key value) (some a)),
          k ∈ keys (deref h (some a)) ∨ k ∈ keys (deref h source) := by
        intro k hk
        rw [deref_store_same h a key value ha, keys_assign] at hk
        split at hk
        · exact Or.inl hk
        · rcases List.mem_append.mp hk with hk2 | hk2
          · exact Or.inl hk2
          · simp only [List.mem_singleton] at hk2
            exact Or.inr (hk2 ▸ hkey)
      refine ⟨next, h1, by rw [h2, length_store], ?_, ?_⟩
      · intro b hb
        rw [h3 b hb, deref_store_other h a b key value hb]
      · intro k hk
        rcases h4 k hk with h5 | h5
        · exact hta k h5
        · by_cases hs : source = some a
          · rw [hs] at h5
            have := hta k h5
            rw [hs]
            rw [hs] at this
            exact this
          · rw [deref_store_source h a source key value hs] at h5
            exact Or.inr h5

/-- The loops of `Merge` on a target that is not nil, whatever the order of
the visits: the keys of the target afterwards are keys that it or one of the
sources had before. -/
theorem mergeLoop_keys (visit : Nat → Map → Map) (a : Nat) (sources : List (Option Nat))
    (i : Nat) (h : Heap) (ha : a < h.length) :
    ∃ next, mergeLoop visit (some a) i sources h = some next ∧ next.length = h.length ∧
      (∀ b, b ≠ a → deref next (some b) = deref h (some b)) ∧
      ∀ k ∈ keys (deref next (some a)),
        k ∈ keys (deref h (some a)) ∨ ∃ s ∈ sources, k ∈ keys (deref h s) := by
  induction sources generalizing i h with
  | nil => exact ⟨h, rfl, rfl, fun _ _ => rfl, fun k hk => Or.inl hk⟩
  | cons source rest ih =>
    obtain ⟨mid, h1, h2, h3, h4⟩ := mergeLive_keys a source (keys (visit i (deref h source))) h ha
    obtain ⟨next, g1, g2, g3, g4⟩ := ih (i + 1) mid (by rw [h2]; exact ha)
    have hmid : ∀ k ∈ keys (deref mid (some a)),
        k ∈ keys (deref h (some a)) ∨ ∃ s ∈ source :: rest, k ∈ keys (deref h s) := by
      intro k hk
      rcases h4 k hk with h5 | h5
      · exact Or.inl h5
      · exact Or.inr ⟨source, by simp, h5⟩
    refine ⟨next, by simp only [mergeLoop, h1]; exact g1, by rw [g2, h2], ?_, ?_⟩
    · intro b hb
      rw [g3 b hb, h3 b hb]
    · intro k hk
      rcases g4 k hk with h5 | ⟨s, hs, h5⟩
      · exact hmid k h5
      · by_cases hsa : s = some a
        · rw [hsa] at h5
          exact hmid k h5
        · have : deref mid s = deref h s := by
            cases s with
            | none => rfl
            | some b => exact h3 b (fun e => hsa (by rw [e]))
          rw [this] at h5
          exact Or.inr ⟨s, by simp [hs], h5⟩

/-- `Clone` is `make(Map)` followed by `Merge` with the one source `m`: for a
map `m` of the heap, or the nil map, whose entries the loop visits in the
order `visit 0`, `Clone` returns what that call of `Merge` returns. -/
theorem Clone_as_Merge (visit : Nat → Map → Map) (h : Heap) (m : Option Nat)
    (hwf : ∀ t ∈ h, (keys t).Nodup) (hm : ∀ a, m = some a → a < h.length)
    (hv : (visit 0 (deref h m)).Perm (deref h m)) :
    Clone h (visit 0 (deref h m)) = Merge visit (h ++ [[]]) (some h.length) [m] := by
  have hd : deref (h ++ [[]]) m = deref h m := by
    cases m with
    | none => rfl
    | some a => exact deref_append_old h _ a (hm a rfl)
  have hne : m ≠ some h.length := by
    intro e
    exact Nat.lt_irrefl _ (hm _ e)
  have hl : mergeLive (some h.length) m (keys (visit 0 (deref h m))) (h ++ [[]])
      = mergeRange (some h.length) (visit 0 (deref h m)) (h ++ [[]]) := by
    refine mergeLive_other _ _ _ _ hne ?_
    intro kv hkv
    rw [hd]
    exact lookup_eq_of_mem _ _ (nodup_deref h m hwf) kv (hv.subset hkv) rfl
  simp only [Clone, Merge, mergeLoop, hd, hl]
  cases mergeRange (some h.length) (visit 0 (deref h m)) (h ++ [[]]) <;> rfl

/-- Two maps with distinct keys, the same length and every entry of the first
in the second have the same entries. -/
theorem same_entries (A B : Map) (hA : (keys A).Nodup) (hlen : A.length = B.length)
    (hsub : ∀ kv ∈ A, kv ∈ B) : ∀ kv, kv ∈ A ↔ kv ∈ B := by
  have hAn : A.Nodup := List.Nodup.of_map Prod.fst hA
  have hperm : A.Perm B :=
    (List.subperm_of_subset hAn hsub).perm_of_length_le (by omega)
  exact fun kv => hperm.mem_iff

/-- Helper: `Equals` holds exactly for two maps that are both nil or both not
and have the same entries. -/
theorem Equals_iff (h : Heap) (a b : Option Nat) (hwf : ∀ t ∈ h, (keys t).Nodup) :
    Equals h a b = true ↔
      (a.isNone = b.isNone ∧ ∀ kv, kv ∈ deref h a ↔ kv ∈ deref h b) := by
  have hA := nodup_deref h a hwf
  have hB := nodup_deref h b hwf
  unfold Equals
  by_cases hn : a.isNone = b.isNone
  swap
  · simp [hn]
  · simp only [hn, bne_self_eq_false, Bool.false_eq_true, if_false, true_and]
    by_cases hlen : (deref h a).length = (deref h b).length
    swap
    · simp only [bne_iff_ne, ne_eq, hlen, not_false_eq_true, if_true, Bool.false_eq_true,
        false_iff]
      intro hsame
      apply hlen
      have hAn : (deref h a).Nodup := List.Nodup.of_map Prod.fst hA
      have hBn : (deref h b).Nodup := List.Nodup.of_map Prod.fst hB
      exact ((List.perm_ext_iff_of_nodup hAn hBn).mpr hsame).length_eq
    · simp only [bne_iff_ne, ne_eq, hlen, not_true_eq_false, if_false]
      by_cases hab : a = b
      · subst hab
        simp
      · simp only [beq_iff_eq, hab, if_false, List.all_eq_true, decide_eq_true_eq]
        constructor
        · intro hall
          refine same_entries _ _ hA hlen ?_
          intro kv hkv
          exact (lookup_iff_mem _ kv.1 kv.2 hB).mp (hall kv hkv)
        · intro hsame kv hkv
          exact (lookup_iff_mem _ kv.1 kv.2 hB).mpr ((hsame kv).mp hkv)

theorem last_with (P : Str → Prop) (lines : List Str) (h : ∃ l ∈ lines, P l) :
    ∃ pre l post, lines = pre ++ l :: post ∧ P l ∧ ∀ x ∈ post, ¬ P x := by
  induction lines with
  | nil => simp at h
  | cons line rest ih =>
    by_cases hr : ∃ l ∈ rest, P l
    · obtain ⟨pre, l, post, h1, h2, h3⟩ := ih hr
      exact ⟨line :: pre, l, post, by rw [h1]; rfl, h2, h3⟩
    · obtain ⟨l, hl, hp⟩ := h
      rcases List.mem_cons.mp hl with rfl | hl
      · exact ⟨[], l, rest, rfl, hp, fun x hx hpx => hr ⟨x, hx, hpx⟩⟩
      · exact absurd ⟨l, hl, hp⟩ hr

/-- The keys of the map that `LoadFromSlice` returns are the keys of the lines
that are not skipped. -/
theorem keys_LoadFromSlice (osSuffix : Str) (lines : List Str) (m : Map)
    (h : LoadFromSlice osSuffix lines = Except.ok m) (k : Str) :
    k ∈ keys m ↔ ∃ line ∈ lines, ¬ Skipped line ∧ lineKey osSuffix line = k := by
  obtain ⟨h1, h2⟩ := loadRange_lookup osSuffix lines 0 [] m h k
  constructor
  · intro hk
    by_contra hno
    have hall : ∀ l ∈ lines, Skipped l ∨ lineKey osSuffix l ≠ k := by
      intro l hl
      by_cases hs : Skipped l
      · exact Or.inl hs
      · exact Or.inr (fun he => hno ⟨l, hl, hs, he⟩)
    have := h2 hall
    exact ((lookup_none_iff m k).mp (by rw [this]; rfl)) hk
  · intro hex
    obtain ⟨pre, l, post, hl, ⟨hs, hkey⟩, hpost⟩ :=
      last_with (fun l => ¬ Skipped l ∧ lineKey osSuffix l = k) lines hex
    have hv := h1 pre l post hl hs hkey (by
      intro x hx
      by_cases hsx : Skipped x
      · exact Or.inl hsx
      · exact Or.inr (fun he => hpost x hx ⟨hsx, he⟩))
    by_contra hk
    rw [(lookup_none_iff m k).mpr hk] at hv
    cases hv

theorem emitToken_filter (tok : Str) (rest : List Str) :
    emitToken false tok (rest.filter (fun t => !t.isEmpty))
      = (emitToken true tok rest).filter (fun t => !t.isEmpty) := by
  cases tok with
  | nil => simp [emitToken]
  | cons c cs => simp [emitToken]

theorem splitFrom_filter (blank : Char → Bool) (quoteChars : Str) (quote : Option Char)
    (tok src : Str) :
    splitFrom blank quoteChars false quote tok src
      = (splitFrom blank quoteChars true quote tok src).map
          (List.filter (fun t => !t.isEmpty)) := by
  induction src generalizing quote tok with
  | nil =>
    cases quote with
    | none =>
      simp only [splitFrom, Option.map_some']
      exact congrArg some (emitToken_filter tok [])
    | some q => rfl
  | cons c cs ih =>
    cases quote with
    | none =>
      simp only [splitFrom]
      by_cases hb : blank c = true
      · rw [if_pos hb, if_pos hb, ih none []]
        cases splitFrom blank quoteChars true none [] cs with
        | none => rfl
        | some rest =>
          simp only [Option.map_some']
          exact congrArg some (emitToken_filter tok rest)
      · rw [if_neg hb, if_neg hb]
        by_cases hq : c ∈ quoteChars
        · rw [if_pos hq, if_pos hq, ih]
        · rw [if_neg hq, if_neg hq, ih]
    | some q =>
      simp only [splitFrom]
      by_cases hc : c = q
      · rw [if_pos hc, if_pos hc, ih]
      · rw [if_neg hc, if_neg hc, ih]

/-- The model of the tokenizer gives the results that the tests in
`strings_test.go` require. -/
theorem SplitQuotedString_tests :
    SplitQuotedString isSpace "this is a \"test of quoting\" another test".toList "\"".toList true
        = some ["this".toList, "is".toList, "a".toList, "test of quoting".toList,
            "another".toList, "test".toList] ∧
      SplitQuotedString isSpace
          "this is a \"test 'of' quoting\" 'another test' \"that's it\"".toList "\"'".toList true
        = some ["this".toList, "is".toList, "a".toList, "test 'of' quoting".toList,
            "another test".toList, "that's it".toList] ∧
      SplitQuotedString isSpace "èthis is a testè of quoting".toList "è".toList true
        = some ["this is a test".toList, "of".toList, "quoting".toList] ∧
      SplitQuotedString isSpace "'this is' a 'test of quoting".toList "\"'".toList true = none ∧
      SplitQuotedString isSpace "'this is' a \"'test\" of \"quoting".toList "\"'".toList true
        = none := by
  decide

/-! ## Claims on `SubTree` -/

/-- C11 (the code at the input of the test `TestSubTreeForMultipleDots`): for
the map with `root.lev1.prop -> hi`, `root.lev1.prop2 -> how`,
`root.lev1.prop3 -> are`, `root.lev1.prop4 -> you` and `root.lev1 -> A`,
`SubTree` of `root.lev1` is the nil map, which has no entry for `prop`; the
only sub-map is the one under `root`, which holds the entries under the keys
`lev1.prop` to `lev1.prop4`. -/
theorem subTree_multiple_dots :
    SubTree [("root.lev1.prop".toList, "hi".toList), ("root.lev1.prop2".toList, "how".toList),
        ("root.lev1.prop3".toList, "are".toList), ("root.lev1.prop4".toList, "you".toList),
        ("root.lev1".toList, "A".toList)] "root.lev1".toList = none ∧
      lookupNil (SubTree [("root.lev1.prop".toList, "hi".toList),
        ("root.lev1.prop2".toList, "how".toList), ("root.lev1.prop3".toList, "are".toList),
        ("root.lev1.prop4".toList, "you".toList), ("root.lev1".toList, "A".toList)]
        "root.lev1".toList) "prop".toList = none ∧
      SubTree [("root.lev1.prop".toList, "hi".toList), ("root.lev1.prop2".toList, "how".toList),
        ("root.lev1.prop3".toList, "are".toList), ("root.lev1.prop4".toList, "you".toList),
        ("root.lev1".toList, "A".toList)] "root".toList =
        some [("lev1.prop".toList, "hi".toList), ("lev1.prop2".toList, "how".toList),
          ("lev1.prop3".toList, "are".toList), ("lev1.prop4".toList, "you".toList),
          ("lev1".toList, "A".toList)] := by
  decide

/-- C12: for every map `m`, all segments `a` and `b` without a dot, every
suffix `s` and value `v`, the sub-tree under `b` of the sub-tree of `m` under
`a` has the entry `s -> v` if and only if `m` has the entry
`a + "." + b + "." + s -> v`, whatever orders the two calls visit their maps
in; and when no key of `m` starts with `a + "."`, the sub-tree of `m` under
`a` is the nil map and so is every sub-tree of the nil map. -/
theorem subTree_twice (m order1 : Map) (a b : Str) (hnd : (keys m).Nodup)
    (ho : order1.Perm m) (ha : '.' ∉ a) (hb : '.' ∉ b) :
    (∀ order2 s v, order2.Perm (entries (SubTree order1 a)) →
        (lookupNil (SubTree order2 b) s = some v ↔
          lookup m (a ++ '.' :: (b ++ '.' :: s)) = some v)) ∧
      ((∀ k ∈ keys m, ¬ (a ++ ['.']) <+: k) →
        SubTree order1 a = none ∧ ∀ c, SubTree (entries none) c = none) := by
  constructor
  · intro order2 s v ho2
    have hmain : lookupNil (SubTree order1 a) (b ++ '.' :: s) = some v ↔
        lookup m (a ++ '.' :: (b ++ '.' :: s)) = some v := by
      rw [lookupNil_SubTree m order1 a _ v hnd ho]
      simp [ha]
    rw [← hmain]
    cases hsub : SubTree order1 a with
    | none =>
      rw [hsub] at ho2
      have h2 : order2 = [] := List.Perm.eq_nil ho2
      subst h2
      simp [SubTree, FirstLevelOf, firstLevelRange, lookup, lookupNil]
    | some sub =>
      rw [hsub] at ho2
      have hsubnd : (keys sub).Nodup := by
        refine nodup_firstLevelRange order1 [] ?_ a sub hsub
        intro p x hx
        simp [lookup] at hx
      rw [lookupNil_SubTree sub order2 b s v hsubnd ho2]
      simp [hb, lookupNil]
  · intro hno
    refine ⟨?_, fun c => rfl⟩
    unfold SubTree FirstLevelOf
    rw [lookup_firstLevelRange_none]
    refine ⟨rfl, ?_⟩
    intro kv hkv hdot he
    refine hno kv.1 (mem_keys_of_mem m kv (ho.subset hkv)) ?_
    have := split_at_dot kv.1 hdot
    rw [he] at this
    exact ⟨afterDot kv.1, by simpa using this.symm⟩

theorem subTree_twice_witness :
    lookupNil (SubTree (entries (SubTree [("a.b.c".toList, "1".toList), ("a.d".toList,
        "2".toList)] "a".toList)) "b".toList) "c".toList = some "1".toList ↔
      lookup [("a.d".toList, "2".toList), ("a.b.c".toList, "1".toList)]
        ("a".toList ++ '.' :: ("b".toList ++ '.' :: "c".toList)) = some "1".toList :=
  (subTree_twice [("a.d".toList, "2".toList), ("a.b.c".toList, "1".toList)]
    [("a.b.c".toList, "1".toList), ("a.d".toList, "2".toList)] "a".toList "b".toList
    (by decide) (List.Perm.swap _ _ _) (by decide) (by decide)).1 _ "c".toList "1".toList
    (List.Perm.refl _)

/-! ## Claims on `Clone`, `Equals` and `Merge` -/

/-- The statement of C13 fails for the nil map: its clone is a new empty map
object, and `Equals` of that object and the nil map is false. -/
theorem clone_nil_counterexample :
    Clone [] (entries none) = some ([[]], some 0) ∧ Equals [[]] (some 0) none = false := by
  decide

/-- C13 (amended): for every map `m` that is not nil, empty or not,
`m.Clone().Equals(m)` is true, while for the nil map it is false; `Clone`
returns a new map object and leaves every object of the heap as it is; and an
assignment to an entry of the clone changes the clone and leaves the entries
of `m` unchanged. -/
theorem clone_round_trip (h : Heap) (m : Option Nat) (order : Map)
    (hwf : ∀ t ∈ h, (keys t).Nodup) (hm : ∀ a, m = some a → a < h.length)
    (ho : order.Perm (deref h m)) :
    Clone h order = some (h ++ [order], some h.length) ∧
      (Equals (h ++ [order]) (some h.length) m = true ↔ m ≠ none) ∧
      (∀ key value,
        deref (store (h ++ [order]) h.length key value) m = deref h m ∧
        deref (store (h ++ [order]) h.length key value) (some h.length)
          = assign order key value) := by
  have hnd : (keys order).Nodup := ((ho.map Prod.fst).nodup_iff).mpr (nodup_deref h m hwf)
  have hm2 : deref (h ++ [order]) m = deref h m := by
    cases m with
    | none => rfl
    | some a => exact deref_append_old h [order] a (hm a rfl)
  refine ⟨?_, ?_, ?_⟩
  · rw [Clone_eq, overlayOne_append [] order (by simpa using hnd)]
    simp
  · have hwf2 : ∀ t ∈ h ++ [order], (keys t).Nodup := by
      intro t ht
      rcases List.mem_append.mp ht with ht | ht
      · exact hwf t ht
      · simp only [List.mem_singleton] at ht
        rw [ht]
        exact hnd
    rw [Equals_iff _ _ _ hwf2, deref_append_new, hm2]
    cases m with
    | none => simp
    | some a =>
      simp only [Option.isNone_some, ne_eq, not_false_eq_true, true_and, iff_true,
        reduceCtorEq]
      exact fun kv => ho.mem_iff
  · intro key value
    rw [store_last]
    refine ⟨?_, deref_append_new h _⟩
    cases m with
    | none => rfl
    | some a => exact deref_append_old h _ a (hm a rfl)

theorem clone_round_trip_witness :
    Clone [[("a".toList, "1".toList), ("b".toList, "2".toList)]]
        [("b".toList, "2".toList), ("a".toList, "1".toList)]
      = some ([[("a".toList, "1".toList), ("b".toList, "2".toList)]] ++
          [[("b".toList, "2".toList), ("a".toList, "1".toList)]], some 1) :=
  (clone_round_trip [[("a".toList, "1".toList), ("b".toList, "2".toList)]] (some 0)
    [("b".toList, "2".toList), ("a".toList, "1".toList)] (by decide)
    (fun a ha => by
      have : a = 0 := (Option.some.inj ha).symm
      subst this
      decide)
    (List.Perm.swap _ _ _)).1

/-- The statement of C14 fails for the nil map and an empty map that is not
nil: they have the same entries, none, and `Equals` is false. -/
theorem equals_nil_empty_counterexample :
    deref [[]] none = deref [[]] (some 0) ∧ Equals [[]] none (some 0) = false := by
  decide

/-- C14 (amended): for all maps `a` and `b`, `a.Equals(b)` is true if and
only if `a` and `b` are both nil or both not nil and contain exactly the same
key/value pairs, in whatever order their objects hold them; two maps that are
equal have the same size. -/
theorem equals_value_wise (h : Heap) (a b : Option Nat) (hwf : ∀ t ∈ h, (keys t).Nodup) :
    (Equals h a b = true ↔
        (a.isNone = b.isNone ∧ ∀ kv, kv ∈ deref h a ↔ kv ∈ deref h b)) ∧
      (Equals h a b = true → (deref h a).length = (deref h b).length) := by
  refine ⟨Equals_iff h a b hwf, ?_⟩
  intro he
  have hA : (deref h a).Nodup := List.Nodup.of_map Prod.fst (nodup_deref h a hwf)
  have hB : (deref h b).Nodup := List.Nodup.of_map Prod.fst (nodup_deref h b hwf)
  exact ((List.perm_ext_iff_of_nodup hA hB).mpr ((Equals_iff h a b hwf).mp he).2).length_eq

theorem equals_value_wise_witness :
    Equals [[("a".toList, "1".toList), ("b".toList, "2".toList)],
        [("b".toList, "2".toList), ("a".toList, "1".toList)]] (some 0) (some 1) = true ↔
      ((some 0 : Option Nat).isNone = (some 1 : Option Nat).isNone ∧
        ∀ kv, kv ∈ deref [[("a".toList, "1".toList), ("b".toList, "2".toList)],
            [("b".toList, "2".toList), ("a".toList, "1".toList)]] (some 0) ↔
          kv ∈ deref [[("a".toList, "1".toList), ("b".toList, "2".toList)],
            [("b".toList, "2".toList), ("a".toList, "1".toList)]] (some 1)) :=
  (equals_value_wise _ (some 0) (some 1) (by decide)).1

/-- The statement of C15 fails for a nil target and for a source that is the
target.  The first assignment to an entry of the nil map panics.  And with
the target `m` holding `a -> 1` and another map `s` holding `a -> 2`, the call
`m.Merge(s, m)` leaves `a -> 2` in `m`, although the last source that contains
`a` is `m`, in which `a` had the value `1` when `Merge` was called. -/
theorem merge_nil_or_same_counterexample :
    Merge (fun _ t => t) [[("a".toList, "b".toList)]] none [some 0] = none ∧
      lookup (deref [[("a".toList, "1".toList)], [("a".toList, "2".toList)]] (some 0))
          "a".toList = some "1".toList ∧
      Merge (fun _ t => t) [[("a".toList, "1".toList)], [("a".toList, "2".toList)]] (some 0)
          [some 1, some 0]
        = some ([[("a".toList, "2".toList)], [("a".toList, "2".toList)]], some 0) ∧
      lookup (deref [[("a".toList, "2".toList)], [("a".toList, "2".toList)]] (some 0))
          "a".toList = some "2".toList :=
  ⟨by decide, by decide, by decide, by decide⟩

/-- C15 (amended): for every target `m` that is not nil and all sources,
whatever the order in which each loop visits the entries of its source,
`Merge` does not panic, returns `m`, changes no other map object, and leaves
in `m`, for each key `k`, the value that `k` had, when `Merge` was called, in
the last source other than `m` itself that contains `k`, or the previous
value of `m` when no source other than `m` contains `k`, so that no key from
outside `m` and the sources is present; a source that is `m` itself changes
nothing; for a nil target it returns nil when no source has an entry. -/
theorem merge_overlay (visit : Nat → Map → Map) (h : Heap) (a : Nat)
    (sources : List (Option Nat)) (hvis : ∀ i t, (visit i t).Perm t) (ha : a < h.length)
    (hwf : ∀ t ∈ h, (keys t).Nodup) :
    (∃ next, Merge visit h (some a) sources = some (next, some a) ∧ next.length = h.length ∧
        (∀ b, b ≠ a → deref next (some b) = deref h (some b)) ∧
        ∀ k,
          (∀ pre src post, sources = pre ++ src :: post → src ≠ some a →
            k ∈ keys (deref h src) → (∀ s ∈ post, s ≠ some a → k ∉ keys (deref h s)) →
            lookup (deref next (some a)) k = lookup (deref h src) k) ∧
          ((∀ s ∈ sources, s ≠ some a → k ∉ keys (deref h s)) →
            lookup (deref next (some a)) k = lookup (deref h (some a)) k)) ∧
      ((∀ s ∈ sources, s = some a) → Merge visit h (some a) sources = some (h, some a)) ∧
      ((∀ s ∈ sources, deref h s = []) → Merge visit h none sources = some (h, none)) := by
  refine ⟨?_, ?_, ?_⟩
  · obtain ⟨next, h1, h2, h3, h4⟩ :=
      mergeLoop_some visit hvis a sources 0 h ha (fun s => nodup_deref h s hwf)
    exact ⟨next, by simp only [Merge, h1], h2, h3, h4⟩
  · intro hall
    have : ∀ i, mergeLoop visit (some a) i sources h = some h := by
      induction sources with
      | nil => exact fun _ => rfl
      | cons s rest ih =>
        intro i
        have hs : s = some a := hall s (by simp)
        subst hs
        simp only [mergeLoop, mergeLive_self]
        exact ih (fun s hs => hall s (by simp [hs])) (i + 1)
    simp only [Merge, this 0]
  · intro hall
    have : ∀ i, mergeLoop visit none i sources h = some h := by
      induction sources with
      | nil => exact fun _ => rfl
      | cons s rest ih =>
        intro i
        have hs : deref h s = [] := hall s (by simp)
        have hv : visit i (deref h s) = [] := by
          rw [hs]
          exact List.perm_nil.mp (hvis i [])
        simp only [mergeLoop, hv, keys, List.map_nil, mergeLive]
        exact ih (fun s hs => hall s (by simp [hs])) (i + 1)
    simp only [Merge, this 0]

theorem merge_overlay_witness :
    ∃ next,
      Merge (fun _ t => t.reverse)
          [[("a".toList, "1".toList), ("b".toList, "2".toList)], [("a".toList, "3".toList)],
            [("c".toList, "4".toList), ("a".toList, "5".toList)]]
          (some 0) [some 1, some 2, some 0]
        = some (next, some 0) ∧
      lookup (deref next (some 0)) "a".toList = some "5".toList := by
  obtain ⟨next, h1, _, _, h4⟩ := (merge_overlay (fun _ t => t.reverse)
    [[("a".toList, "1".toList), ("b".toList, "2".toList)], [("a".toList, "3".toList)],
      [("c".toList, "4".toList), ("a".toList, "5".toList)]] 0 [some 1, some 2, some 0]
    (fun _ t => List.reverse_perm t) (by decide) (by decide)).1
  exact ⟨next, h1, ((h4 "a".toList).1 [some 1] (some 2) [some 0] rfl (by decide) (by decide)
    (by decide))⟩

/-! ## Claims on `LoadFromSlice`, `parseLine` and the keys of maps -/

/-- C16: `LoadFromSlice` returns an error if and only if some line is
malformed, that is, after trimming it is not empty, does not start with `#`
and does not split at a `=` into a key and a value; the error carries the
index, counted from 0, of the first malformed line; and when no line is
malformed it returns a map, the same map as for the lines that are neither
blank nor comments. -/
theorem load_error_iff (osSuffix : Str) (lines : List Str) :
    ((∃ i, LoadFromSlice osSuffix lines = Except.error i) ↔ ∃ line ∈ lines, Malformed line) ∧
      (∀ i, LoadFromSlice osSuffix lines = Except.error i ↔
        ∃ pre line post, lines = pre ++ line :: post ∧ pre.length = i ∧ Malformed line ∧
          ∀ l ∈ pre, ¬ Malformed l) ∧
      ((∀ line ∈ lines, ¬ Malformed line) →
        ∃ m, LoadFromSlice osSuffix lines = Except.ok m ∧
          LoadFromSlice osSuffix (lines.filter (fun l => ¬ Skipped l)) = Except.ok m) := by
  have hidx : ∀ i, LoadFromSlice osSuffix lines = Except.error i ↔
      ∃ pre line post, lines = pre ++ line :: post ∧ pre.length = i ∧ Malformed line ∧
        ∀ l ∈ pre, ¬ Malformed l := by
    intro i
    unfold LoadFromSlice
    rw [loadRange_error]
    constructor
    · rintro ⟨pre, line, post, h1, h2, h3, h4⟩
      exact ⟨pre, line, post, h1, by omega, h3, h4⟩
    · rintro ⟨pre, line, post, h1, h2, h3, h4⟩
      exact ⟨pre, line, post, h1, by omega, h3, h4⟩
  refine ⟨?_, hidx, fun h => loadRange_ok osSuffix lines 0 0 [] h⟩
  constructor
  · rintro ⟨i, hi⟩
    obtain ⟨pre, line, post, h1, _, h3, _⟩ := (hidx i).mp hi
    exact ⟨line, by rw [h1]; simp, h3⟩
  · intro h
    obtain ⟨pre, line, post, h1, h2, h3⟩ := first_Malformed lines h
    exact ⟨pre.length, (hidx pre.length).mpr ⟨pre, line, post, h1, rfl, h2, h3⟩⟩

theorem load_error_iff_witness :
    LoadFromSlice "linux".toList ["a=b".toList, "# c".toList, "oops".toList, "nope".toList]
      = Except.error 2 :=
  ((load_error_iff "linux".toList
    ["a=b".toList, "# c".toList, "oops".toList, "nope".toList]).2.1 2).mpr
    ⟨["a=b".toList, "# c".toList], "oops".toList, ["nope".toList], rfl, rfl,
      (Malformed_iff _).mpr (by decide),
      fun l hl => (Malformed_iff l).not.mpr (by
        simp only [List.mem_cons, List.mem_singleton, List.not_mem_nil, or_false] at hl
        rcases hl with rfl | rfl <;> decide)⟩

/-- The statement of C17 fails where the text `"." + osSuffix` is not a whole
segment: with the suffix `linux` the line `a.linuxx=v`, whose key has no
segment `linux`, is stored under `ax`, and the line `a.linuxx.linux=v`, whose
key has the segment `linux` at its end, is stored under `ax.linux`. -/
theorem parseLine_os_suffix_counterexample :
    "linux".toList ∈ osSuffixes ∧
      ("linux".toList ∉ segments "a.linuxx".toList ∧
        parseLine "linux".toList [] "a.linuxx=v".toList = some [("ax".toList, "v".toList)]) ∧
      ("linux".toList ∈ segments "a.linuxx.linux".toList ∧
        parseLine "linux".toList [] "a.linuxx.linux=v".toList
          = some [("ax.linux".toList, "v".toList)]) := by
  decide

/-- C17 (amended): for every value `S` of `osSuffix` and every line `k=v`
whose key part `k` is trimmed, has no `=` and does not start with `#`: if `k`
does not contain the text `"." + S`, the entry is stored under `k` unchanged;
and if `k` contains it, the entry is stored under `k` with the first
occurrence of that text removed.  The value stored is the trimmed `v`. -/
theorem parseLine_os_suffix (osSuffix : Str) (m : Map) (k v x y : Str)
    (hk1 : TrimSpace k = k) (hk2 : '=' ∉ k) (hk3 : k.head? ≠ some '#') :
    (¬ ('.' :: osSuffix) <:+: k →
        parseLine osSuffix m (k ++ '=' :: v) = some (assign m k (TrimSpace v))) ∧
      (k = x ++ ('.' :: osSuffix) ++ y → FirstAt ('.' :: osSuffix) x →
        parseLine osSuffix m (k ++ '=' :: v) = some (assign m (x ++ y) (TrimSpace v))) := by
  have h := parseLine_key_value osSuffix m k v hk1 hk2 hk3
  constructor
  · intro hno
    rw [h]
    simp only [ReplaceFirst, List.cons_ne_nil, if_false, replaceFirst_absent _ _ _ hno]
  · intro hk hfirst
    rw [h, hk]
    simp only [ReplaceFirst, List.cons_ne_nil, if_false]
    rw [replaceFirst_at _ _ x y (List.cons_ne_nil _ _) hfirst]
    simp

theorem parseLine_os_suffix_witness :
    parseLine "linux".toList [] ("which.os.linux".toList ++ '=' :: "is linux".toList)
        = some (assign [] ("which.os".toList ++ []) (TrimSpace "is linux".toList)) :=
  (parseLine_os_suffix "linux".toList [] "which.os.linux".toList "is linux".toList
    "which.os".toList [] (by decide) (by decide) (by decide)).2 (by decide) (by decide)

/-- The statement of C18 fails for `LoadFromSlice` and for `FirstLevelOf`: the
line `=x`, and on linux the line `.linux=x`, are stored under the empty key,
and the map with the single key `a.` has a sub-map under `a` with the empty
key. -/
theorem empty_key_counterexample :
    LoadFromSlice "linux".toList ["=x".toList] = Except.ok [([], "x".toList)] ∧
      LoadFromSlice "linux".toList [".linux=x".toList] = Except.ok [([], "x".toList)] ∧
      [] ∉ keys [("a.".toList, "v".toList)] ∧
      SubTree [("a.".toList, "v".toList)] "a".toList = some [([], "v".toList)] := by
  decide

/-- C18 (amended): `Merge` into a target that is not nil and `Clone` keep a
map free of the empty key; the map that `LoadFromSlice` returns has the empty
key exactly when a line that is not skipped has an empty key after trimming
and removal of the suffix; and the sub-maps of `FirstLevelOf` have no empty
key when no key of the map ends right after its first dot. -/
theorem nonempty_keys (osSuffix : Str) (lines : List Str) (loaded : Map) (h : Heap) (a : Nat)
    (pick : Nat → Map → Map) (sources : List (Option Nat)) (order m visit : Map)
    (hload : LoadFromSlice osSuffix lines = Except.ok loaded)
    (ha : a < h.length) (hnd : (keys m).Nodup) (hv : visit.Perm m) :
    ([] ∈ keys loaded ↔ ∃ line ∈ lines, ¬ Skipped line ∧ lineKey osSuffix line = []) ∧
      ([] ∉ keys (deref h (some a)) → (∀ s ∈ sources, [] ∉ keys (deref h s)) →
        ∃ next, Merge pick h (some a) sources = some (next, some a) ∧
          [] ∉ keys (deref next (some a))) ∧
      ([] ∉ keys order →
        ∃ next clone, Clone h order = some (next, clone) ∧ [] ∉ keys (deref next clone)) ∧
      ((∀ k ∈ keys m, '.' ∈ k → afterDot k ≠ []) →
        ∀ p sub, SubTree visit p = some sub → [] ∉ keys sub) := by
  refine ⟨keys_LoadFromSlice osSuffix lines loaded hload [], ?_, ?_, ?_⟩
  · intro ht hs
    obtain ⟨next, h1, _, _, h4⟩ := mergeLoop_keys pick a sources 0 h ha
    refine ⟨next, by simp only [Merge, h1], ?_⟩
    intro hk
    rcases h4 [] hk with h5 | ⟨s, hs1, hs2⟩
    · exact ht h5
    · exact hs s hs1 hs2
  · intro ho
    refine ⟨_, _, Clone_eq h order, ?_⟩
    rw [deref_append_new]
    intro hk
    rcases keys_overlayOne [] order [] hk with h5 | h5
    · simp [keys] at h5
    · exact ho h5
  · intro hm p sub hsub hk
    have hne : lookup sub [] ≠ none := fun e => (lookup_none_iff sub []).mp e hk
    obtain ⟨v, hv2⟩ := Option.ne_none_iff_exists'.mp hne
    have hl : lookupNil (SubTree visit p) [] = some v := by
      rw [hsub]
      exact hv2
    rw [lookupNil_SubTree m visit p [] v hnd hv] at hl
    have hmem : p ++ ['.'] ∈ keys m := by
      by_contra hno
      rw [(lookup_none_iff m _).mpr hno] at hl
      cases hl.2
    exact hm _ hmem (by simp) (afterDot_append p [] hl.1)

theorem nonempty_keys_witness :
    ([] ∈ keys [("a".toList, "1".toList)] ↔
        ∃ line ∈ ["a = 1".toList], ¬ Skipped line ∧ lineKey "linux".toList line = []) ∧
      ∃ next,
        Merge (fun _ t => t) [[("a".toList, "1".toList)], [("b".toList, "2".toList)]] (some 0)
            [some 1, some 0]
          = some (next, some 0) ∧
        [] ∉ keys (deref next (some 0)) :=
  have w := nonempty_keys "linux".toList ["a = 1".toList] [("a".toList, "1".toList)]
    [[("a".toList, "1".toList)], [("b".toList, "2".toList)]] 0 (fun _ t => t) [some 1, some 0]
    [] [] [] (by decide) (by decide) (by decide) (List.Perm.refl _)
  ⟨w.1, w.2.1 (by decide) (by decide)⟩

/-! ## Claims on `SplitQuotedString` and on the order of lines -/

/-- C19: for every input string and quote set, `SplitQuotedString` with the
flag false fails exactly when it fails with the flag true, and otherwise
returns the tokens of the flag-true result without those of length zero, in
the same order; for the input `this   is  a " test 'of' quoting " ` with the
quote set of the double and the single quote the flag-true result is `this`,
the empty token twice, `is`, the empty token, `a`, ` test 'of' quoting ` and
the empty token, and the flag-false result is `this`, `is`, `a` and
` test 'of' quoting `. -/
theorem split_empty_policy (blank : Char → Bool) (src quoteChars : Str) :
    (SplitQuotedString blank src quoteChars false = none ↔
        SplitQuotedString blank src quoteChars true = none) ∧
      SplitQuotedString blank src quoteChars false
        = (SplitQuotedString blank src quoteChars true).map
            (List.filter (fun t => !t.isEmpty)) ∧
      SplitQuotedString isSpace "this   is  a \" test 'of' quoting \" ".toList "\"'".toList true
        = some ["this".toList, [], [], "is".toList, [], "a".toList,
            " test 'of' quoting ".toList, []] ∧
      SplitQuotedString isSpace "this   is  a \" test 'of' quoting \" ".toList "\"'".toList false
        = some ["this".toList, "is".toList, "a".toList, " test 'of' quoting ".toList] := by
  have h := splitFrom_filter blank quoteChars none [] src
  refine ⟨?_, h, by decide, by decide⟩
  unfold SplitQuotedString
  rw [h]
  simp

/-- C20: for every list of lines none of which is malformed, `LoadFromSlice`
returns a map that holds, for each key `k`, the value (the trimmed text after
the first `=`) of the last line that is not skipped and whose key (the trimmed
text before the first `=`, with the first `"." + osSuffix` removed) is `k`,
and that has no other key; so `key=value = 1` gives `key -> value = 1`, a
generic line after the `.linux` line replaces the platform value, and a
`.linux` line after the generic line replaces the generic value. -/
theorem load_last_wins (osSuffix : Str) (lines : List Str)
    (h : ∀ line ∈ lines, ¬ Malformed line) :
    (∃ m, LoadFromSlice osSuffix lines = Except.ok m ∧ ∀ k,
        (∀ pre line post, lines = pre ++ line :: post → ¬ Skipped line →
          lineKey osSuffix line = k → (∀ l ∈ post, Skipped l ∨ lineKey osSuffix l ≠ k) →
          lookup m k = some (lineValue line)) ∧
        ((∀ l ∈ lines, Skipped l ∨ lineKey osSuffix l ≠ k) → lookup m k = none)) ∧
      LoadFromSlice "linux".toList ["key=value = 1".toList]
        = Except.ok [("key".toList, "value = 1".toList)] ∧
      LoadFromSlice "linux".toList ["which.os.linux=is linux".toList, "which.os=generic".toList]
        = Except.ok [("which.os".toList, "generic".toList)] ∧
      LoadFromSlice "linux".toList ["which.os=generic".toList, "which.os.linux=is linux".toList]
        = Except.ok [("which.os".toList, "is linux".toList)] := by
  refine ⟨?_, by decide, by decide, by decide⟩
  obtain ⟨m, hm, _⟩ := loadRange_ok osSuffix lines 0 0 [] h
  refine ⟨m, hm, fun k => ?_⟩
  obtain ⟨h1, h2⟩ := loadRange_lookup osSuffix lines 0 [] m hm k
  exact ⟨h1, fun hall => by rw [h2 hall]; rfl⟩

theorem load_last_wins_witness :
    ∃ m, LoadFromSlice "linux".toList
        ["# comment".toList, "a.linux = 1".toList, "".toList, "a=2=3".toList] = Except.ok m ∧
      lookup m "a".toList = some "2=3".toList := by
  obtain ⟨m, hm, hk⟩ := (load_last_wins "linux".toList
    ["# comment".toList, "a.linux = 1".toList, "".toList, "a=2=3".toList]
    (fun l hl => (Malformed_iff l).not.mpr (by
      simp only [List.mem_cons, List.mem_singleton, List.not_mem_nil, or_false] at hl
      rcases hl with rfl | rfl | rfl | rfl <;> decide))).1
  exact ⟨m, hm, (hk "a".toList).1 ["# comment".toList, "a.linux = 1".toList, "".toList]
    "a=2=3".toList [] rfl (by decide) (by decide) (by simp)⟩

end Properties
